import Mathlib

/-!
# Multi-model phrase dictionary: weight resolution, aggregation and linear interpolation

A shallow embedding of `moses/src/PhraseDictionaryMultiModel.cpp`: `getWeights` and
`normalizeWeights`, the aggregation loop of `GetTargetPhraseCollection`,
`CreateTargetPhraseCollectionLinearInterpolation`, `CreateRuleLookupManager`,
`CacheForCleanup` and `CleanUp`, and `Load`.

Numbers.  C++ `float`/`double` values are modelled in exact arithmetic by `Flt`
(the rounding of binary32 and binary64 is modelled apart, by `BinFloat`, for the
lines where it decides a property):
a rational number, or the single value `nonfin` standing for every non-finite
IEEE value (an infinity or a NaN).  Weight vectors handed to the dictionary
(the request override and the configuration weights) hold finite values and
are lists of rationals.

Vectors are lists.  A C++ loop `for (i = 0; i < n; ++i) v[i] = e` is a left fold
over `List.range n` that overwrites position `i`.  Sizes and indices are natural
numbers: the product `m_numModels * numWeights` is taken without `size_t`
wrap-around, and `m_numScoreComponent - 1` is the `size_t` difference for
`m_numScoreComponent ≥ 1`, which the properties about that position assume.

`CHECK(false)` aborts the process; a function that can reach it returns an
`Option`, and `none` is the abort.
-/

namespace Moses

/-! ## Numbers -/

/-- A C++ floating-point value in exact arithmetic: a rational, or a non-finite value. -/
inductive Flt where
  | fin (q : ℚ)
  | nonfin
deriving DecidableEq

namespace Flt

/-- Addition: finite values add exactly, a non-finite operand gives a non-finite sum. -/
def add : Flt → Flt → Flt
  | fin a, fin b => fin (a + b)
  | _, _ => nonfin

/-- Multiplication: finite values multiply exactly, a non-finite operand gives a non-finite product. -/
def mul : Flt → Flt → Flt
  | fin a, fin b => fin (a * b)
  | _, _ => nonfin

/-- Unary minus. -/
def neg : Flt → Flt
  | fin a => fin (-a)
  | nonfin => nonfin

/-- Division of two finite values: dividing by zero gives a non-finite value. -/
def div (a b : ℚ) : Flt :=
  if b = 0 then nonfin else fin (a / b)

end Flt

/-- The algorithm `std::accumulate(first, last, init)` on finite values. -/
def accumulate (xs : List ℚ) (init : ℚ) : ℚ :=
  xs.foldl (fun acc x => acc + x) init

/-- The algorithm `std::inner_product(first1, last1, first2, init)`: the first range drives
the loop and the second range is read at the same positions (C++ requires it to be at
least as long as the first). -/
def inner_product (xs ys : List Flt) (init : Flt) : Flt :=
  (List.zip xs ys).foldl (fun acc xy => Flt.add acc (Flt.mul xy.1 xy.2)) init

/-! ## Weight resolution: `getWeights` and `normalizeWeights` -/

/-- The two weight vectors `getWeights` reads from `StaticData`; each getter returns a
pointer, which may be null. -/
structure StaticData where
  /-- The request-scoped override, `GetTemporaryMultiModelWeightsVector()`. -/
  temporaryMultiModelWeightsVector : Option (List ℚ)
  /-- The persistent configuration weights, `GetMultiModelWeightsVector()`. -/
  multiModelWeightsVector : Option (List ℚ)

/-- A message handed to `UserMessage::Add` by `getWeights`.  Both messages print
`raw_weights.size()`, which is still `0` where they are built. -/
inductive UserMessage where
  /-- Malformed request override: "... Reverting to weights in config". -/
  | revertingToConfig (numModels numWeights reported : Nat)
  /-- Malformed configuration weights, followed by `CHECK(false)`. -/
  | malformedConfig (numModels numWeights reported : Nat)
deriving DecidableEq

/-- What a call of `getWeights` does: the messages it records and the matrix it
returns (`none` when it stops at `CHECK(false)`). -/
structure WeightsOutcome where
  messages : List UserMessage
  result : Option (List (List Flt))

/-- Lines 213-225: the vector `weights_ptr` points to after the request override has
been examined, with the warning recorded on the way. -/
def selectWeightsPtr (m_numModels numWeights : Nat) (sd : StaticData) :
    List UserMessage × Option (List ℚ) :=
  match sd.temporaryMultiModelWeightsVector with
  | none => ([], sd.multiModelWeightsVector)
  | some w =>
    if w.length = 0 then ([], sd.multiModelWeightsVector)
    else if w.length ≠ m_numModels ∧ w.length ≠ m_numModels * numWeights then
      ([UserMessage.revertingToConfig m_numModels numWeights 0], sd.multiModelWeightsVector)
    else ([], some w)

/-- Lines 229-231: `m_numModels` times `push_back(1.0/m_numModels)`. -/
def uniformWeights (m_numModels : Nat) : List ℚ :=
  (List.range m_numModels).foldl (fun raw_weights _ => raw_weights ++ [1 / (m_numModels : ℚ)]) []

/-- Lines 228-241: `raw_weights` from the selected vector; `none` is `CHECK(false)`. -/
def resolveRawWeights (m_numModels numWeights : Nat) (weights_ptr : Option (List ℚ)) :
    List UserMessage × Option (List ℚ) :=
  match weights_ptr with
  | none => ([], some (uniformWeights m_numModels))
  | some w =>
    if w.length = 0 then ([], some (uniformWeights m_numModels))
    else if w.length ≠ m_numModels ∧ w.length ≠ m_numModels * numWeights then
      ([UserMessage.malformedConfig m_numModels numWeights 0], none)
    else ([], some w)

/-- Lines 264-272: `ret` starts as `m_numModels` zeros and position `i` is overwritten
with `weights[i]/total` for every `i < weights.size()`. -/
def normalizeWeights (m_numModels : Nat) (weights : List ℚ) : List Flt :=
  let total := accumulate weights 0
  (List.range weights.length).foldl
    (fun ret i => ret.set i (Flt.div (weights.getD i 0) total))
    (List.replicate m_numModels (Flt.fin 0))

/-- Lines 246-252: the row `weights_onefeature` for feature `i`: the whole vector when it
has one weight per model, otherwise the slice `[i*m_numModels, (i+1)*m_numModels)`. -/
def weightsOneFeature (m_numModels : Nat) (raw_weights : List ℚ) (i : Nat) : List ℚ :=
  if raw_weights.length = m_numModels then raw_weights
  else (raw_weights.drop (i * m_numModels)).take m_numModels

/-- Lines 243-261: the matrix starts as `numWeights` empty rows and row `i` is assigned
the (normalised, if asked) row of feature `i`. -/
def buildWeightMatrix (m_numModels numWeights : Nat) (normalize : Bool)
    (raw_weights : List ℚ) : List (List Flt) :=
  (List.range numWeights).foldl
    (fun multimodelweights i =>
      let weights_onefeature := weightsOneFeature m_numModels raw_weights i
      multimodelweights.set i
        (if normalize then normalizeWeights m_numModels weights_onefeature
         else weights_onefeature.map Flt.fin))
    (List.replicate numWeights [])

/-- Lines 213-241 together: the messages recorded and the content of `raw_weights` when
line 243 is reached (`none` when `CHECK(false)` stops the call before). -/
def rawWeights (m_numModels numWeights : Nat) (sd : StaticData) :
    List UserMessage × Option (List ℚ) :=
  let sel := selectWeightsPtr m_numModels numWeights sd
  let raw := resolveRawWeights m_numModels numWeights sel.2
  (sel.1 ++ raw.1, raw.2)

/-- The method `PhraseDictionaryMultiModel::getWeights(numWeights, normalize)`. -/
def getWeights (m_numModels : Nat) (sd : StaticData) (numWeights : Nat) (normalize : Bool) :
    WeightsOutcome :=
  let raw := rawWeights m_numModels numWeights sd
  { messages := raw.1
    result := raw.2.map (buildWeightMatrix m_numModels numWeights normalize) }

/-! ## Target phrases and the per-candidate statistics -/

/-- A target phrase: its string representation `GetStringRep(m_output)` (the merge key),
an opaque payload, the scores `GetScoreBreakdown().GetScoresForProducer(m_feature)` it
came with, and the score vectors handed to `SetScore` on this object, oldest first.
`SetScore` itself lives in `TargetPhrase.cpp`; the calls are recorded, not interpreted. -/
structure TargetPhrase (P : Type) where
  stringRep : String
  payload : P
  scores : List Flt
  setScoreCalls : List (List Flt)

/-- The call `targetPhrase->SetScore(m_feature, scoreVector, ...)`. -/
def SetScore {P : Type} (tp : TargetPhrase P) (scoreVector : List Flt) : TargetPhrase P :=
  { tp with setScoreCalls := tp.setScoreCalls ++ [scoreVector] }

/-- The struct `multiModelStatistics`: the copied target phrase and the matrix `p`, one row
per score component and one column per model. -/
structure multiModelStatistics (P : Type) where
  targetPhrase : TargetPhrase P
  p : List (List Flt)

/-- The map `std::map<std::string, multiModelStatistics*>`: entries in increasing key order. -/
abbrev StatsMap (P : Type) := List (String × multiModelStatistics P)

/-- The lookup `allStats->find(key)`; `none` is `allStats->end()`. -/
def StatsMap.find {P : Type} (key : String) : StatsMap P → Option (multiModelStatistics P)
  | [] => none
  | (k, v) :: rest => if k = key then some v else StatsMap.find key rest

/-- The assignment `(*allStats)[key] = statistics`: overwrite the entry of `key`, or insert
a new entry at its place in key order. -/
def StatsMap.assign {P : Type} (key : String) (statistics : multiModelStatistics P) :
    StatsMap P → StatsMap P
  | [] => [(key, statistics)]
  | (k, v) :: rest =>
    if k = key then (key, statistics) :: rest
    else if key < k then (key, statistics) :: (k, v) :: rest
    else (k, v) :: StatsMap.assign key statistics rest

/-! ## Aggregation: the loop of `GetTargetPhraseCollection` -/

/-- Lines 141-151: the entry allocated at the first occurrence of a key.  The copy of the
target phrase receives `SetScore` with the negated raw scores; `p` is resized to
`m_numScoreComponent` rows of `m_numModels` zeros.  A read `raw_scores[j]` past the end of
the vector (undefined in C++) reads zero. -/
def newStatistics {P : Type} (m_numScoreComponent m_numModels : Nat) (targetPhrase : TargetPhrase P) :
    multiModelStatistics P :=
  let raw_scores := targetPhrase.scores
  let scoreVector := (List.range m_numScoreComponent).foldl
    (fun sv j => sv.set j (Flt.neg (raw_scores.getD j (Flt.fin 0))))
    (List.replicate m_numScoreComponent (Flt.fin 0))
  let p := (List.range m_numScoreComponent).foldl
    (fun p j => p.set j (List.replicate m_numModels (Flt.fin 0)))
    (List.replicate m_numScoreComponent [])
  { targetPhrase := SetScore targetPhrase scoreVector, p := p }

/-- Lines 158-160: `p[j][i] = UntransformScore(raw_scores[j])` for every component `j`. -/
def writeScores (UntransformScore : Flt → Flt) (m_numScoreComponent i : Nat)
    (raw_scores : List Flt) (p : List (List Flt)) : List (List Flt) :=
  (List.range m_numScoreComponent).foldl
    (fun p j => p.set j ((p.getD j []).set i (UntransformScore (raw_scores.getD j (Flt.fin 0)))))
    p

/-- Lines 135-162: the body of the inner loop for one target phrase of backend `i`. -/
def aggregateCandidate {P : Type} (UntransformScore : Flt → Flt)
    (m_numScoreComponent m_numModels i : Nat)
    (allStats : StatsMap P) (targetPhrase : TargetPhrase P) : StatsMap P :=
  let targetString := targetPhrase.stringRep
  let allStats1 :=
    match StatsMap.find targetString allStats with
    | none =>
      StatsMap.assign targetString (newStatistics m_numScoreComponent m_numModels targetPhrase) allStats
    | some _ => allStats
  match StatsMap.find targetString allStats1 with
  | none => allStats1
  | some statistics =>
    StatsMap.assign targetString
      { statistics with
        p := writeScores UntransformScore m_numScoreComponent i targetPhrase.scores statistics.p }
      allStats1

/-- Lines 127-132: the position of `iterLast`, counted from `ret_raw->begin()`. -/
def iterLast (m_componentTableLimit size : Nat) : Nat :=
  if m_componentTableLimit ≠ 0 ∧ size > m_componentTableLimit then m_componentTableLimit
  else size

/-- Lines 123-164: backend `i` returned `ret_raw` (`none` is `NULL`); the iterator runs from
`begin()` to `iterLast`. -/
def aggregateBackend {P : Type} (UntransformScore : Flt → Flt)
    (m_numScoreComponent m_numModels m_componentTableLimit : Nat)
    (allStats : StatsMap P) (i : Nat) (ret_raw : Option (List (TargetPhrase P))) : StatsMap P :=
  match ret_raw with
  | none => allStats
  | some tpc =>
    (List.range (iterLast m_componentTableLimit tpc.length)).foldl
      (fun allStats it =>
        match tpc[it]? with
        | some targetPhrase =>
          aggregateCandidate UntransformScore m_numScoreComponent m_numModels i allStats targetPhrase
        | none => allStats)
      allStats

/-- Lines 119-165: the loop over the backends.  `lookups` holds, for each backend of `m_pd`
in order, what `m_pd[i]->GetTargetPhraseCollection(src)` returns. -/
def aggregate {P : Type} (UntransformScore : Flt → Flt)
    (m_numScoreComponent m_numModels m_componentTableLimit : Nat)
    (lookups : List (Option (List (TargetPhrase P)))) : StatsMap P :=
  (List.range m_numModels).foldl
    (fun allStats i =>
      aggregateBackend UntransformScore m_numScoreComponent m_numModels m_componentTableLimit
        allStats i (lookups.getD i none))
    []

/-! ## Combination: `CreateTargetPhraseCollectionLinearInterpolation` -/

/-- Lines 187-194: the score vector of one entry.  It starts as `m_numScoreComponent` zeros;
position `i < m_numScoreComponent-1` receives the transformed inner product of row `i` of
`p` with row `i` of the weights, and the last position receives `1.0`.
The subtraction is the one of `size_t` for `m_numScoreComponent ≥ 1`. -/
def combinedScoreVector (TransformScore : Flt → Flt) (m_numScoreComponent : Nat)
    (p multimodelweights : List (List Flt)) : List Flt :=
  let scoreVector := (List.range (m_numScoreComponent - 1)).foldl
    (fun sv i =>
      sv.set i (TransformScore (inner_product (p.getD i []) (multimodelweights.getD i []) (Flt.fin 0))))
    (List.replicate m_numScoreComponent (Flt.fin 0))
  scoreVector.set (m_numScoreComponent - 1) (Flt.fin 1)

/-- The method `CreateTargetPhraseCollectionLinearInterpolation`: the entries of the map in
key order, each target phrase given its combined score vector and added to `ret`. -/
def CreateTargetPhraseCollectionLinearInterpolation {P : Type} (TransformScore : Flt → Flt)
    (m_numScoreComponent : Nat) (allStats : StatsMap P) (multimodelweights : List (List Flt)) :
    List (TargetPhrase P) :=
  allStats.foldl
    (fun ret entry =>
      ret ++ [SetScore entry.2.targetPhrase
        (combinedScoreVector TransformScore m_numScoreComponent entry.2.p multimodelweights)])
    []

/-! ## The dictionary and `GetTargetPhraseCollection` -/

/-- The members of `PhraseDictionaryMultiModel` the lookup reads.  `m_pd` holds the lookup
function of each backend; `Load` leaves `m_numModels` equal to its length. -/
structure PhraseDictionaryMultiModel (Src P : Type) where
  m_numScoreComponent : Nat
  m_numModels : Nat
  m_tableLimit : Nat
  m_componentTableLimit : Nat
  m_pd : List (Src → Option (List (TargetPhrase P)))

/-- The sentence cache of one execution context: the collections adopted so far. -/
abbrev PhraseCache (P : Type) := List (List (TargetPhrase P))

/-- The method `CacheForCleanup(tpc)`, on the cache slot `ref` of the calling context. -/
def CacheForCleanup {P : Type} (ref : PhraseCache P) (tpc : List (TargetPhrase P)) : PhraseCache P :=
  ref ++ [tpc]

/-- The method `GetTargetPhraseCollection(src)` in mode "interpolate" (the only mode the
constructor sets).  `NthElement` is `TargetPhraseCollection::NthElement`, defined outside
this file.  The result is the returned collection and the cache slot after
`CacheForCleanup`; `none` is the abort of `getWeights`. -/
def GetTargetPhraseCollection {Src P : Type} (TransformScore UntransformScore : Flt → Flt)
    (NthElement : Nat → List (TargetPhrase P) → List (TargetPhrase P))
    (d : PhraseDictionaryMultiModel Src P) (sd : StaticData) (ref : PhraseCache P) (src : Src) :
    Option (List (TargetPhrase P) × PhraseCache P) :=
  let numWeights := d.m_numScoreComponent - 1
  match (getWeights d.m_numModels sd numWeights true).result with
  | none => none
  | some multimodelweights =>
    let allStats := aggregate UntransformScore d.m_numScoreComponent d.m_numModels
      d.m_componentTableLimit (d.m_pd.map (fun pd => pd src))
    let ret := CreateTargetPhraseCollectionLinearInterpolation TransformScore
      d.m_numScoreComponent allStats multimodelweights
    let ret := NthElement d.m_tableLimit ret
    some (ret, CacheForCleanup ref ret)

/-! ## `CreateRuleLookupManager` -/

/-- Modelled from the spec: the macro `CHECK` is declared in `util/check.hh`, outside this
file; a failed check is fatal and ends the process.  `none` is that end, `some ()` lets the
caller continue. -/
def CHECK (condition : Bool) : Option Unit :=
  if condition then some () else none

/-- The method `CreateRuleLookupManager`: `CHECK(false)`, then `return 0`.  The outer
`Option` is the abort, the inner one the returned pointer (`none` is the null pointer). -/
def CreateRuleLookupManager {Input Cells Manager : Type} (_input : Input) (_cells : Cells) :
    Option (Option Manager) :=
  (CHECK false).bind (fun _ => some none)

/-! ## The sentence cache: `CacheForCleanup` and `CleanUp` -/

/-- The setter `StaticData::SetTemporaryMultiModelWeightsVector(weights)`. -/
def SetTemporaryMultiModelWeightsVector (sd : StaticData) (weights : List ℚ) : StaticData :=
  { sd with temporaryMultiModelWeightsVector := some weights }

/-- What `CacheForCleanup` and `CleanUp` act on: `m_sentenceCache` (under `WITH_THREADS` a
map from the thread id to the cache of that thread, where a thread without an entry has an
empty cache; without threads a single cache, that of thread 0), the weight vectors of
`StaticData`, and the collections handed to `delete` so far, oldest first. -/
structure CacheState (P : Type) where
  m_sentenceCache : Nat → PhraseCache P
  staticData : StaticData
  deleted : List (List (TargetPhrase P))

/-- The method `CacheForCleanup(tpc)` called by the thread `thread`. -/
def CacheForCleanupBy {P : Type} (thread : Nat) (s : CacheState P) (tpc : List (TargetPhrase P)) :
    CacheState P :=
  { s with
    m_sentenceCache :=
      Function.update s.m_sentenceCache thread (CacheForCleanup (s.m_sentenceCache thread) tpc) }

/-- The method `CleanUp(source)` called by the thread `thread`: every collection of the
thread's cache is deleted, the cache is swapped with an empty one, and the temporary
weights are set to the empty vector. -/
def CleanUp {P : Type} (thread : Nat) (s : CacheState P) : CacheState P :=
  let ref := s.m_sentenceCache thread
  let deleted := ref.foldl (fun deleted tpc => deleted ++ [tpc]) s.deleted
  { m_sentenceCache := Function.update s.m_sentenceCache thread []
    staticData := SetTemporaryMultiModelWeightsVector s.staticData []
    deleted := deleted }

/-! ## `Load` -/

/-- What `Load` reads from outside this file: `Scan<int>` (`Util.h`), the values `Memory`
and `Compact` of the enumeration `PhraseTableImplementation` (`TypeDef.h`), the file test
`FileExists`, and whether the build defines `WIN32`. -/
structure LoadEnv where
  Scan : String → Int
  Memory : Int
  Compact : Int
  FileExists : String → Bool
  WIN32 : Bool

/-- The class of a constructed backend. -/
inductive BackendClass where
  | PhraseDictionaryMemory
  | PhraseDictionaryCompact
deriving DecidableEq

/-- A backend as `Load` constructs it and pushes it on `m_pd`: its class, the value passed
to `SetNumScoreComponentMultiModel`, and the file and table limit passed to its `Load`. -/
structure LoadedBackend where
  backendClass : BackendClass
  numScoreComponentMultiModel : Nat
  file : String
  tableLimit : Nat
deriving DecidableEq

/-- The members `Load` sets. -/
structure LoadedDictionary where
  m_tableLimit : Nat
  m_componentTableLimit : Nat
  m_numModels : Nat
  m_pd : List LoadedBackend
deriving DecidableEq

/-- The position `files[i].find(":")`: the index of the first `':'`; when there is none the
model returns the size of the string, C++ returns `npos`, and both are `≥ size()`. -/
def findDelim (spec : String) : Nat :=
  spec.toList.findIdx (fun c => c == ':')

/-- Lines 65-101: the body of the loop of `Load` for one table spec; `none` is
`CHECK(false)`. -/
def loadTable (env : LoadEnv) (m_numScoreComponent m_componentTableLimit : Nat)
    (spec : String) : Option LoadedBackend :=
  let delim_pos := findDelim spec
  if delim_pos ≥ spec.toList.length then none
  else
    let impl := String.mk (spec.toList.take delim_pos)
    let file := String.mk (spec.toList.drop (delim_pos + 1))
    let implementation := env.Scan impl
    if implementation = env.Memory then
      let file := if !env.FileExists file && env.FileExists (file ++ ".gz") then file ++ ".gz"
        else file
      some { backendClass := BackendClass.PhraseDictionaryMemory
             numScoreComponentMultiModel := m_numScoreComponent
             file := file
             tableLimit := m_componentTableLimit }
    else if implementation = env.Compact then
      if env.WIN32 then none
      else
        some { backendClass := BackendClass.PhraseDictionaryCompact
               numScoreComponentMultiModel := m_numScoreComponent
               file := file
               tableLimit := m_componentTableLimit }
    else none

/-- The method `Load`, on a dictionary whose `m_pd` is still empty: the loop runs over the
table specs in order and stops at the first `CHECK(false)` (`none`); `some` is
`return true` with the members as `Load` leaves them. -/
def Load (env : LoadEnv) (m_numScoreComponent : Nat) (files : List String) (tableLimit : Nat) :
    Option LoadedDictionary :=
  let m_pd := (List.range files.length).foldl
    (fun m_pd i =>
      m_pd.bind (fun pds =>
        (loadTable env m_numScoreComponent tableLimit (files.getD i "")).map
          (fun pd => pds ++ [pd])))
    (some [])
  m_pd.map (fun pds =>
    { m_tableLimit := tableLimit
      m_componentTableLimit := tableLimit
      m_numModels := files.length
      m_pd := pds })

/-! ## The numeric lines in binary floating point

The rounding of the C++ types, for the lines where the exact model `Flt` and the program
differ: `float` is binary32 (24 significand bits), `double` is binary64 (53 significand
bits), every operation is evaluated in the type of its operands after the usual
conversions and rounds to nearest, ties to even.  The exponent range (overflow, subnormal
values) is not modelled. -/

/-- A finite binary floating-point value, `mant * 2^exp`. -/
structure BinFloat where
  mant : Int
  exp : Int
deriving DecidableEq

/-- The rational number a finite binary floating-point value stands for. -/
def BinFloat.toRat (x : BinFloat) : ℚ :=
  if 0 ≤ x.exp then (x.mant : ℚ) * ((2 ^ x.exp.toNat : Nat) : ℚ)
  else (x.mant : ℚ) / ((2 ^ (-x.exp).toNat : Nat) : ℚ)

/-- The number of binary digits of `n` (the first argument bounds the recursion). -/
def bitLength : Nat → Nat → Nat
  | 0, _ => 0
  | fuel + 1, n => if n = 0 then 0 else bitLength fuel (n / 2) + 1

/-- The value `(n / d) * 2^e0` rounded to a significand of `p` bits, to nearest and ties to
even: with `k` the binary exponent of `|n| / d`, the quotient is scaled to `p` digits before
the point, rounded to an integer `M`, and the result is `± M * 2^(k - (p - 1) + e0)`. -/
def roundRatio (p : Nat) (n : Int) (d : Nat) (e0 : Int) : BinFloat :=
  if n = 0 then { mant := 0, exp := 0 }
  else
    let a := n.natAbs
    let E : Int := (bitLength a a : Int) - (bitLength d d : Int)
    let atLeast : Bool :=
      if 0 ≤ E then decide (d * 2 ^ E.toNat ≤ a) else decide (d ≤ a * 2 ^ (-E).toNat)
    let k : Int := if atLeast then E else E - 1
    let s : Int := k - ((p : Int) - 1)
    let N : Nat := if 0 ≤ s then a else a * 2 ^ (-s).toNat
    let D : Nat := if 0 ≤ s then d * 2 ^ s.toNat else d
    let f := N / D
    let r := N % D
    let M : Nat :=
      if 2 * r < D then f else if D < 2 * r then f + 1 else if f % 2 = 0 then f else f + 1
    { mant := if n < 0 then -(M : Int) else (M : Int), exp := s + e0 }

/-- The value `0.0`. -/
def BinFloat.zero : BinFloat := { mant := 0, exp := 0 }

/-- The conversion of a value to the type with `p` significand bits. -/
def BinFloat.convert (p : Nat) (x : BinFloat) : BinFloat :=
  roundRatio p x.mant 1 x.exp

/-- The sum of two values in the type with `p` significand bits. -/
def BinFloat.add (p : Nat) (x y : BinFloat) : BinFloat :=
  let e := min x.exp y.exp
  roundRatio p (x.mant * 2 ^ (x.exp - e).toNat + y.mant * 2 ^ (y.exp - e).toNat) 1 e

/-- The product of two values in the type with `p` significand bits. -/
def BinFloat.mul (p : Nat) (x y : BinFloat) : BinFloat :=
  roundRatio p (x.mant * y.mant) 1 (x.exp + y.exp)

/-- The quotient of two values in the type with `p` significand bits; `none` for a zero
divisor, where the quotient is not finite. -/
def BinFloat.div (p : Nat) (x y : BinFloat) : Option BinFloat :=
  if y.mant = 0 then none
  else some (roundRatio p (if y.mant < 0 then -x.mant else x.mant) y.mant.natAbs (x.exp - y.exp))

/-- The weight vectors of `StaticData` as vectors of `float`. -/
structure StaticDataFloat where
  temporaryMultiModelWeightsVector : Option (List BinFloat)
  multiModelWeightsVector : Option (List BinFloat)

/-- Lines 213-225 on vectors of `float`: the vector `weights_ptr` points to after the
request override has been examined. -/
def selectWeightsPtrFloat (m_numModels numWeights : Nat) (sd : StaticDataFloat) :
    Option (List BinFloat) :=
  match sd.temporaryMultiModelWeightsVector with
  | none => sd.multiModelWeightsVector
  | some w =>
    if w.length = 0 then sd.multiModelWeightsVector
    else if w.length ≠ m_numModels ∧ w.length ≠ m_numModels * numWeights then
      sd.multiModelWeightsVector
    else some w

/-- Lines 229-231 in floating point: `1.0/m_numModels` is a division of `double`s, and
`push_back` converts the quotient to `float`. -/
def uniformWeightsFloat (m_numModels : Nat) : List BinFloat :=
  (List.range m_numModels).foldl
    (fun raw_weights _ => raw_weights ++ [BinFloat.convert 24 (roundRatio 53 1 m_numModels 0)])
    []

/-- Lines 228-241 on vectors of `float`; `none` is `CHECK(false)`. -/
def resolveRawWeightsFloat (m_numModels numWeights : Nat) (weights_ptr : Option (List BinFloat)) :
    Option (List BinFloat) :=
  match weights_ptr with
  | none => some (uniformWeightsFloat m_numModels)
  | some w =>
    if w.length = 0 then some (uniformWeightsFloat m_numModels)
    else if w.length ≠ m_numModels ∧ w.length ≠ m_numModels * numWeights then none
    else some w

/-- Lines 264-272 in floating point: `std::accumulate` starts from the `double` `0.0` and
adds in `double`; `total` is that sum converted to `float`; each quotient
`weights[i]/total` is a division of `float`s.  `none` when `total` is zero. -/
def normalizeWeightsFloat (m_numModels : Nat) (weights : List BinFloat) :
    Option (List BinFloat) :=
  let total :=
    BinFloat.convert 24 (weights.foldl (fun acc w => BinFloat.add 53 acc w) BinFloat.zero)
  (List.range weights.length).foldl
    (fun ret i =>
      ret.bind (fun r =>
        (BinFloat.div 24 (weights.getD i BinFloat.zero) total).map (fun q => r.set i q)))
    (some (List.replicate m_numModels BinFloat.zero))

/-- Lines 243-261 on vectors of `float`: row `i` of the matrix; a row is `none` when its
normalisation divides by zero. -/
def buildWeightMatrixFloat (m_numModels numWeights : Nat) (normalize : Bool)
    (raw_weights : List BinFloat) : List (Option (List BinFloat)) :=
  (List.range numWeights).foldl
    (fun multimodelweights i =>
      let weights_onefeature :=
        if raw_weights.length = m_numModels then raw_weights
        else (raw_weights.drop (i * m_numModels)).take m_numModels
      multimodelweights.set i
        (if normalize then normalizeWeightsFloat m_numModels weights_onefeature
         else some weights_onefeature))
    (List.replicate numWeights (some []))

/-- The method `getWeights(numWeights, normalize)` in floating point; `none` is
`CHECK(false)`. -/
def getWeightsFloat (m_numModels : Nat) (sd : StaticDataFloat) (numWeights : Nat)
    (normalize : Bool) : Option (List (Option (List BinFloat))) :=
  (resolveRawWeightsFloat m_numModels numWeights
    (selectWeightsPtrFloat m_numModels numWeights sd)).map
    (buildWeightMatrixFloat m_numModels numWeights normalize)

/-- Line 190 in floating point: `std::inner_product` starts from the `double` `0.0`; each
product of two `float`s is a `float`, and each sum is taken in `double`. -/
def inner_productFloat (xs ys : List BinFloat) (init : BinFloat) : BinFloat :=
  (List.zip xs ys).foldl (fun acc xy => BinFloat.add 53 acc (BinFloat.mul 24 xy.1 xy.2)) init

/-! ## Definitions used to state the properties -/

/-- The sum over the models `m < numModels` of `row[m] * wrow[m]`, in the arithmetic of `Flt`. -/
def weightedSum (numModels : Nat) (row wrow : List Flt) : Flt :=
  ((List.range numModels).map
    (fun m => Flt.mul (row.getD m (Flt.fin 0)) (wrow.getD m (Flt.fin 0)))).foldr
    Flt.add (Flt.fin 0)

/-- The sum of a row of `Flt` values. -/
def Flt.sum (xs : List Flt) : Flt :=
  xs.foldr Flt.add (Flt.fin 0)

/-- Entry `[d][j]` of a weight vector read as the specification reads it: `w[j]` when the
vector has one weight per model (the same row for every dimension), `w[d*numModels + j]`
when it is a full matrix in row-major order. -/
def specEntry (numModels : Nat) (w : List ℚ) (d j : Nat) : ℚ :=
  if w.length = numModels then w.getD j 0 else w.getD (d * numModels + j) 0

/-- The sum of row `d` of a weight vector read as the specification reads it. -/
def specRowSum (numModels : Nat) (w : List ℚ) (d : Nat) : ℚ :=
  ∑ j in Finset.range numModels, specEntry numModels w d j

/-- Entry `[d][j]` of the resolved matrix as the specification gives it: the entry itself,
divided by the sum of its row when normalisation is asked for. -/
def specWeight (numModels : Nat) (normalize : Bool) (w : List ℚ) (d j : Nat) : Flt :=
  if normalize then Flt.div (specEntry numModels w d j) (specRowSum numModels w d)
  else Flt.fin (specEntry numModels w d j)

/-- The candidates of one backend that the specification lets contribute: the first
`limit` of them when the limit is non-zero and smaller than their number, otherwise all. -/
def consideredCandidates {P : Type} (limit : Nat) (cands : List (TargetPhrase P)) :
    List (TargetPhrase P) :=
  if limit ≠ 0 ∧ limit < cands.length then cands.take limit else cands

/-- The score vector most recently handed to `SetScore` on a target phrase. -/
def storedScores {P : Type} (tp : TargetPhrase P) : Option (List Flt) :=
  tp.setScoreCalls.getLast?

/-- Modelled from the spec: `TransformScore` is declared in `Util.h`, outside this file; it
converts a linear-domain probability into the decoder's log-domain score, so the
probability `1` has score `0`, and a probability `q ≤ 0` has no finite score.  Those are
the points where the logarithm of a rational is rational or non-finite; elsewhere this
stand-in returns the first-order value `q - 1`. -/
def TransformScoreStandIn : Flt → Flt
  | Flt.fin q => if q ≤ 0 then Flt.nonfin else Flt.fin (q - 1)
  | Flt.nonfin => Flt.nonfin

/-- Example data: one candidate `"a"` seen by two models with linear-domain scores `0.4`
and `0.6` in dimension 0; two score components. -/
def exampleStats : StatsMap Unit :=
  [("a", { targetPhrase := { stringRep := "a", payload := (), scores := [], setScoreCalls := [] }
           p := [[Flt.fin (2 / 5), Flt.fin (3 / 5)], [Flt.fin 0, Flt.fin 0]] })]

/-- Example data: the weights `[0.25, 0.75]` for the single weighted dimension. -/
def exampleWeights : List (List Flt) :=
  [[Flt.fin (1 / 4), Flt.fin (3 / 4)]]

/-- Example data: a candidate with the given key and a single score. -/
def exampleCandidate (key : String) (score : ℚ) : TargetPhrase Unit :=
  { stringRep := key, payload := (), scores := [Flt.fin score], setScoreCalls := [] }

/-- Example data: five candidates of one backend, in the backend's order. -/
def exampleFive : List (TargetPhrase Unit) :=
  [exampleCandidate "a" 1, exampleCandidate "b" 2, exampleCandidate "c" 3,
   exampleCandidate "d" 4, exampleCandidate "e" 5]

/-- The implementation code of a table spec as the specification reads it: what stands
before the first `':'`. -/
def specCode (spec : String) : String :=
  String.mk (spec.toList.takeWhile (fun c => c != ':'))

/-- The path of a table spec as the specification reads it: everything after the first
`':'`. -/
def specPath (spec : String) : String :=
  String.mk ((spec.toList.dropWhile (fun c => c != ':')).drop 1)

/-- The backend a well-formed table spec stands for: a memory table read from the path of
the spec, or from that path with `".gz"` appended when the path does not exist and the
`".gz"` file does; otherwise a compact table read from the path of the spec. -/
def specBackend (env : LoadEnv) (numScoreComponent tableLimit : Nat) (spec : String) :
    LoadedBackend :=
  if env.Scan (specCode spec) = env.Memory then
    { backendClass := BackendClass.PhraseDictionaryMemory
      numScoreComponentMultiModel := numScoreComponent
      file :=
        if env.FileExists (specPath spec) = false ∧ env.FileExists (specPath spec ++ ".gz") = true
        then specPath spec ++ ".gz" else specPath spec
      tableLimit := tableLimit }
  else
    { backendClass := BackendClass.PhraseDictionaryCompact
      numScoreComponentMultiModel := numScoreComponent
      file := specPath spec
      tableLimit := tableLimit }

/-- Example data: a stand-in for `Scan<int>` on the implementation codes of the examples;
`Memory` is 0 and `Compact` is 12; only the file `table.gz` exists. -/
def exampleEnv (win32 : Bool) : LoadEnv :=
  { Scan := fun s => if s = "12" then 12 else 0
    Memory := 0
    Compact := 12
    FileExists := fun f => f == "table.gz"
    WIN32 := win32 }

/-- Modelled from the spec: one step of the partial selection of `NthElement`, which is
defined in `TargetPhraseCollection.cpp`, outside this file.  The step takes the
best-ranked entry out of a collection (the first one among equals) and leaves the other
entries in their order; `rank` is the ranking of the entries, higher is better. -/
def removeBest {α : Type} (rank : α → ℚ) : List α → Option (α × List α)
  | [] => none
  | x :: xs =>
    match removeBest rank xs with
    | none => some (x, [])
    | some (b, rest) => if rank x < rank b then some (b, x :: rest) else some (x, xs)

/-- Modelled from the spec: the partial selection of `NthElement` (defined outside this
file): the `k` best-ranked entries are moved to the front one after the other, and the
remainder is left as the selection leaves it, not sorted. -/
def selectBest {α : Type} (rank : α → ℚ) : Nat → List α → List α
  | 0, l => l
  | k + 1, l =>
    match removeBest rank l with
    | none => []
    | some (b, rest) => b :: selectBest rank k rest

/-- Modelled from the spec: `TargetPhraseCollection::NthElement(tableLimit)` is defined
outside this file.  After all entries are combined it applies a partial selection (not a
full sort) so that the first `tableLimit` entries are the best-ranked ones, leaving the
remainder in arbitrary order; a limit of zero, or one that the collection does not exceed,
leaves the collection as it is. -/
def NthElement {α : Type} (rank : α → ℚ) (tableLimit : Nat) (collection : List α) : List α :=
  if tableLimit = 0 ∨ collection.length ≤ tableLimit then collection
  else selectBest rank tableLimit collection

/-- Example data: a dictionary of two score components over two backends, with backend and
global limit 1; the backends return `"b"`, `"a"` and `"a"`, `"c"`. -/
def exampleDictionary : PhraseDictionaryMultiModel Unit Unit :=
  { m_numScoreComponent := 2
    m_numModels := 2
    m_tableLimit := 1
    m_componentTableLimit := 0
    m_pd :=
      [fun _ => some [{ stringRep := "b", payload := (), scores := [Flt.fin 1, Flt.fin 0],
                        setScoreCalls := [] },
                      { stringRep := "a", payload := (), scores := [Flt.fin 3, Flt.fin 0],
                        setScoreCalls := [] }],
       fun _ => some [{ stringRep := "a", payload := (), scores := [Flt.fin 5, Flt.fin 0],
                        setScoreCalls := [] },
                      { stringRep := "c", payload := (), scores := [Flt.fin 2, Flt.fin 0],
                        setScoreCalls := [] }]] }

/-- Example data: a ranking of the combined candidates, by the first stored score. -/
def exampleRank (tp : TargetPhrase Unit) : ℚ :=
  match storedScores tp with
  | some (Flt.fin q :: _) => q
  | _ => 0

/-- The considered candidates of backend `i` for one source phrase: none when the backend
returned `NULL`, otherwise the candidates within the per-backend limit. -/
def consideredOf {P : Type} (limit : Nat) (lookups : List (Option (List (TargetPhrase P))))
    (i : Nat) : List (TargetPhrase P) :=
  match lookups.getD i none with
  | none => []
  | some cands => consideredCandidates limit cands

/-- All considered candidates, in backend-index order and then in each backend's own order. -/
def allConsidered {P : Type} (limit numModels : Nat)
    (lookups : List (Option (List (TargetPhrase P)))) : List (TargetPhrase P) :=
  (List.range numModels).flatMap (consideredOf limit lookups)

/-- The last candidate with the given key in a list of candidates. -/
def lastWithKey {P : Type} (key : String) (cands : List (TargetPhrase P)) :
    Option (TargetPhrase P) :=
  (cands.filter (fun c => decide (c.stringRep = key))).getLast?

/-- The first candidate with the given key in a list of candidates. -/
def firstWithKey {P : Type} (key : String) (cands : List (TargetPhrase P)) :
    Option (TargetPhrase P) :=
  cands.find? (fun c => decide (c.stringRep = key))

/-- The cell `[d][i]` of the matrix of a key under the policy "last write wins": the
untransformed score `d` of the last considered candidate of backend `i` with that key, and
zero when backend `i` has no such candidate. -/
def lastWriteCell {P : Type} (UntransformScore : Flt → Flt) (limit : Nat)
    (lookups : List (Option (List (TargetPhrase P)))) (key : String) (d i : Nat) : Flt :=
  match lastWithKey key (consideredOf limit lookups i) with
  | some c => UntransformScore (c.scores.getD d (Flt.fin 0))
  | none => Flt.fin 0

/-- The candidates the aggregation loop has processed, each with the index of its backend. -/
def aggregationEvents {P : Type} (limit numModels : Nat)
    (lookups : List (Option (List (TargetPhrase P)))) : List (Nat × TargetPhrase P) :=
  (List.range numModels).flatMap
    (fun i => (consideredOf limit lookups i).map (fun c => (i, c)))

/-- The cell `[d][i]` of the matrix of a key after a sequence of processed candidates. -/
def expectedCell {P : Type} (UntransformScore : Flt → Flt) (events : List (Nat × TargetPhrase P))
    (key : String) (d i : Nat) : Flt :=
  match (events.filter (fun e => decide (e.1 = i ∧ e.2.stringRep = key))).getLast? with
  | some e => UntransformScore (e.2.scores.getD d (Flt.fin 0))
  | none => Flt.fin 0

/-- The matrix of a key after a sequence of processed candidates. -/
def expectedMatrix {P : Type} (UntransformScore : Flt → Flt) (numScoreComponents numModels : Nat)
    (events : List (Nat × TargetPhrase P)) (key : String) : List (List Flt) :=
  (List.range numScoreComponents).map
    (fun d => (List.range numModels).map (fun i => expectedCell UntransformScore events key d i))

/-- The entry of a key after a sequence of processed candidates: none before the key has
occurred; afterwards the copy made of its first occurrence, and its matrix. -/
def expectedEntry {P : Type} (UntransformScore : Flt → Flt) (numScoreComponents numModels : Nat)
    (events : List (Nat × TargetPhrase P)) (key : String) : Option (multiModelStatistics P) :=
  (events.find? (fun e => decide (e.2.stringRep = key))).map
    (fun e0 =>
      { targetPhrase := (newStatistics numScoreComponents numModels e0.2).targetPhrase
        p := expectedMatrix UntransformScore numScoreComponents numModels events key })

/-- The state of the map after a sequence of processed candidates: its keys are in strictly
increasing order, and under every key it holds the expected entry. -/
def aggregationInvariant {P : Type} (UntransformScore : Flt → Flt)
    (numScoreComponents numModels : Nat) (events : List (Nat × TargetPhrase P))
    (allStats : StatsMap P) : Prop :=
  (allStats.map Prod.fst).Pairwise (fun a b => a < b) ∧
    ∀ key, StatsMap.find key allStats =
      expectedEntry UntransformScore numScoreComponents numModels events key

/-- Example data: backend 0 returns the key `"a"` twice, with scores 1 and 2; backend 1
returns the key `"b"` with score 3. -/
def exampleLookups : List (Option (List (TargetPhrase Unit))) :=
  [some [exampleCandidate "a" 1, exampleCandidate "a" 2], some [exampleCandidate "b" 3]]

/-! ## Lemmas on the arithmetic and on the loops -/

theorem Flt.fadd_comm (a b : Flt) : Flt.add a b = Flt.add b a := by
  cases a <;> cases b <;> simp [Flt.add, add_comm]

theorem Flt.fadd_assoc (a b c : Flt) : Flt.add (Flt.add a b) c = Flt.add a (Flt.add b c) := by
  cases a <;> cases b <;> cases c <;> simp [Flt.add, add_assoc]

theorem Flt.zero_fadd (a : Flt) : Flt.add (Flt.fin 0) a = a := by
  cases a <;> simp [Flt.add]

theorem Flt.fadd_zero (a : Flt) : Flt.add a (Flt.fin 0) = a := by
  cases a <;> simp [Flt.add]

/-- A loop that overwrites position `i` at step `i` keeps the length of the vector. -/
theorem foldl_set_range_length {α : Type} (h : List α → Nat → α) (k : Nat) (init : List α) :
    ((List.range k).foldl (fun acc i => acc.set i (h acc i)) init).length = init.length := by
  induction k with
  | zero => simp
  | succ k ih => rw [List.range_succ, List.foldl_append]; simpa using ih

/-- A loop that overwrites position `i` at step `i` with a value computed from the old
content of that position: afterwards position `j < k` holds the value computed from the
initial content, and the positions from `k` on are untouched. -/
theorem foldl_set_range_getElem? {α : Type} (g : α → Nat → α) (d : α) (k : Nat) (init : List α)
    (j : Nat) :
    ((List.range k).foldl (fun acc i => acc.set i (g (acc.getD i d) i)) init)[j]? =
      if j < k then (init[j]?).map (fun x => g x j) else init[j]? := by
  induction k with
  | zero => simp
  | succ k ih =>
    rw [List.range_succ, List.foldl_append]
    simp only [List.foldl_cons, List.foldl_nil]
    rw [List.getElem?_set, foldl_set_range_length (fun acc i => g (acc.getD i d) i)]
    by_cases hjk : k = j
    · subst hjk
      have ih2 := ih
      simp only [lt_irrefl, if_false] at ih2
      simp only [if_true, List.getD_eq_getElem?_getD, Nat.lt_succ_self] at ih2 ⊢
      rw [ih2]
      by_cases hk : k < init.length
      · simp [hk, List.getElem?_eq_getElem hk]
      · simp [hk, List.getElem?_eq_none (Nat.le_of_not_lt hk)]
    · rw [if_neg hjk, ih]
      by_cases hj : j < k
      · simp [hj, Nat.lt_succ_of_lt hj]
      · have : ¬ j < k + 1 := by omega
        simp [hj, this]

/-- The same loop when the value written does not depend on the old content. -/
theorem foldl_set_range_const {α : Type} (f : Nat → α) (k : Nat) (init : List α) (j : Nat) :
    ((List.range k).foldl (fun acc i => acc.set i (f i)) init)[j]? =
      if j < k ∧ j < init.length then some (f j) else init[j]? := by
  have h := foldl_set_range_getElem? (fun _ i => f i) (f 0) k init j
  simp only at h
  rw [h]
  by_cases hj : j < k
  · by_cases hl : j < init.length
    · simp [hj, hl, List.getElem?_eq_getElem hl]
    · simp [hj, hl, List.getElem?_eq_none (Nat.le_of_not_lt hl)]
  · simp [hj]

/-- Filling every position of a vector of length `k`: the result lists the values written. -/
theorem foldl_set_range_replicate {α : Type} (f : Nat → α) (k : Nat) (d : α) :
    (List.range k).foldl (fun acc i => acc.set i (f i)) (List.replicate k d) =
      (List.range k).map f := by
  apply List.ext_getElem?
  intro j
  rw [foldl_set_range_const]
  by_cases hj : j < k
  · simp [hj, List.getElem?_range hj]
  · have hj2 : k ≤ j := Nat.le_of_not_lt hj
    simp [hj, List.getElem?_eq_none, hj2]

theorem inner_product_cons (x y : Flt) (xs ys : List Flt) (init : Flt) :
    inner_product (x :: xs) (y :: ys) init = inner_product xs ys (Flt.add init (Flt.mul x y)) := by
  simp [inner_product]

theorem inner_product_init (xs ys : List Flt) (init : Flt) :
    inner_product xs ys init = Flt.add init (inner_product xs ys (Flt.fin 0)) := by
  induction xs generalizing ys init with
  | nil => simp [inner_product, Flt.fadd_zero]
  | cons x xs ih =>
    cases ys with
    | nil => simp [inner_product, Flt.fadd_zero]
    | cons y ys =>
      rw [inner_product_cons, inner_product_cons, ih, ih ys (Flt.add (Flt.fin 0) (Flt.mul x y)),
        Flt.zero_fadd, Flt.fadd_assoc]

theorem weightedSum_cons (n : Nat) (x y : Flt) (xs ys : List Flt) :
    weightedSum (n + 1) (x :: xs) (y :: ys) = Flt.add (Flt.mul x y) (weightedSum n xs ys) := by
  simp [weightedSum, List.range_succ_eq_map, List.map_map, Function.comp_def]

/-- The left-to-right loop of `std::inner_product` computes the sum of the products. -/
theorem inner_product_eq_weightedSum (numModels : Nat) (row wrow : List Flt)
    (hrow : row.length = numModels) (hw : wrow.length = numModels) :
    inner_product row wrow (Flt.fin 0) = weightedSum numModels row wrow := by
  induction row generalizing wrow numModels with
  | nil =>
    simp at hrow; subst hrow; simp [inner_product, weightedSum]
  | cons x xs ih =>
    cases wrow with
    | nil => simp at hw; subst hw; simp at hrow
    | cons y ys =>
      cases numModels with
      | zero => simp at hrow
      | succ n =>
        simp at hrow hw
        rw [inner_product_cons, weightedSum_cons, inner_product_init, Flt.zero_fadd,
          ih n ys hrow hw]

/-- The collection built by the combination lists the entries of the map in order. -/
theorem CreateTargetPhraseCollectionLinearInterpolation_eq_map {P : Type} (T : Flt → Flt)
    (n : Nat) (allStats : StatsMap P) (W : List (List Flt)) :
    CreateTargetPhraseCollectionLinearInterpolation T n allStats W =
      allStats.map (fun entry =>
        SetScore entry.2.targetPhrase (combinedScoreVector T n entry.2.p W)) := by
  unfold CreateTargetPhraseCollectionLinearInterpolation
  generalize hf : (fun (ret : List (TargetPhrase P)) (entry : String × multiModelStatistics P) =>
    ret ++ [SetScore entry.2.targetPhrase (combinedScoreVector T n entry.2.p W)]) = f
  have key : ∀ (l : StatsMap P) (acc : List (TargetPhrase P)),
      l.foldl f acc = acc ++ l.map (fun entry =>
        SetScore entry.2.targetPhrase (combinedScoreVector T n entry.2.p W)) := by
    intro l
    induction l with
    | nil => intro acc; simp
    | cons e l ih => intro acc; rw [List.foldl_cons, ih, ← hf]; simp
  simpa using key allStats []

/-- Position `d < n-1` of the combined score vector. -/
theorem combinedScoreVector_getElem?_lt (T : Flt → Flt) (n : Nat) (p W : List (List Flt))
    (d : Nat) (hd : d < n - 1) :
    (combinedScoreVector T n p W)[d]? =
      some (T (inner_product (p.getD d []) (W.getD d []) (Flt.fin 0))) := by
  unfold combinedScoreVector
  simp only
  rw [List.getElem?_set, if_neg (by omega), foldl_set_range_const]
  have h2 : d < (List.replicate n (Flt.fin 0)).length := by simp; omega
  rw [if_pos ⟨hd, h2⟩]

/-- The last position of the combined score vector. -/
theorem combinedScoreVector_getElem?_last (T : Flt → Flt) (n : Nat) (p W : List (List Flt))
    (hn : 1 ≤ n) :
    (combinedScoreVector T n p W)[n - 1]? = some (Flt.fin 1) := by
  unfold combinedScoreVector
  simp only
  rw [List.getElem?_set]
  simp only [if_true]
  rw [foldl_set_range_length (fun _ i =>
    T (inner_product (p.getD i []) (W.getD i []) (Flt.fin 0)))]
  simp
  omega

theorem combinedScoreVector_length (T : Flt → Flt) (n : Nat) (p W : List (List Flt)) :
    (combinedScoreVector T n p W).length = n := by
  unfold combinedScoreVector
  simp only
  rw [List.length_set, foldl_set_range_length (fun _ i =>
    T (inner_product (p.getD i []) (W.getD i []) (Flt.fin 0)))]
  simp

theorem storedScores_SetScore {P : Type} (tp : TargetPhrase P) (sv : List Flt) :
    storedScores (SetScore tp sv) = some sv := by
  simp [storedScores, SetScore]

/-! ## Lemmas on weight resolution -/

theorem accumulate_eq_sum (xs : List ℚ) : accumulate xs 0 = xs.sum := by
  unfold accumulate
  rw [List.sum_eq_foldl]

theorem sum_eq_sum_range (xs : List ℚ) (m : Nat) (h : xs.length = m) :
    xs.sum = ∑ j in Finset.range m, xs.getD j 0 := by
  induction xs generalizing m with
  | nil => subst h; simp
  | cons x xs ih =>
    cases m with
    | zero => simp at h
    | succ n =>
      simp at h
      rw [Finset.sum_range_succ', List.sum_cons, ih n h]
      simp [add_comm]

theorem uniformWeights_eq (m : Nat) : uniformWeights m = List.replicate m (1 / (m : ℚ)) := by
  unfold uniformWeights
  generalize (1 / (m : ℚ)) = c
  induction m with
  | zero => simp
  | succ k ih => rw [List.range_succ, List.foldl_append, ih, List.replicate_succ']; simp

/-- On a row with one weight per model, `normalizeWeights` divides every weight by the total. -/
theorem normalizeWeights_eq_map (m : Nat) (weights : List ℚ) (h : weights.length = m) :
    normalizeWeights m weights = weights.map (fun w => Flt.div w (accumulate weights 0)) := by
  unfold normalizeWeights
  simp only
  apply List.ext_getElem?
  intro j
  rw [foldl_set_range_const, List.getElem?_map]
  by_cases hj : j < weights.length
  · have hj2 : j < (List.replicate m (Flt.fin 0)).length := by simp; omega
    rw [if_pos ⟨hj, hj2⟩]
    simp [List.getD_eq_getElem?_getD, List.getElem?_eq_getElem hj]
  · have hj3 : weights.length ≤ j := Nat.le_of_not_lt hj
    have hj4 : m ≤ j := by omega
    simp [hj, List.getElem?_eq_none, hj3, hj4]

/-- The matrix built by the loop of lines 245-259 lists the rows of the features. -/
theorem buildWeightMatrix_eq_map (m nw : Nat) (normalize : Bool) (raw : List ℚ) :
    buildWeightMatrix m nw normalize raw =
      (List.range nw).map (fun i =>
        if normalize then normalizeWeights m (weightsOneFeature m raw i)
        else (weightsOneFeature m raw i).map Flt.fin) := by
  unfold buildWeightMatrix
  exact foldl_set_range_replicate _ nw []

theorem buildWeightMatrix_getElem? (m nw : Nat) (normalize : Bool) (raw : List ℚ) (d : Nat)
    (hd : d < nw) :
    (buildWeightMatrix m nw normalize raw)[d]? =
      some (if normalize then normalizeWeights m (weightsOneFeature m raw d)
        else (weightsOneFeature m raw d).map Flt.fin) := by
  rw [buildWeightMatrix_eq_map, List.getElem?_map, List.getElem?_range hd]
  rfl

/-- A vector that passed the length check yields rows with one weight per model. -/
theorem weightsOneFeature_length (m nw : Nat) (raw : List ℚ) (d : Nat) (hd : d < nw)
    (h : raw.length = m ∨ raw.length = m * nw) :
    (weightsOneFeature m raw d).length = m := by
  unfold weightsOneFeature
  by_cases h1 : raw.length = m
  · rw [if_pos h1]; exact h1
  · rw [if_neg h1]
    rcases h with h | h
    · exact absurd h h1
    · rw [List.length_take, List.length_drop, h]
      have h2 : (d + 1) * m ≤ m * nw := by
        rw [Nat.mul_comm m nw]; exact Nat.mul_le_mul_right m hd
      have h3 : (d + 1) * m = d * m + m := by ring
      omega

/-- The entries of a row are the entries the specification reads. -/
theorem weightsOneFeature_getD (m : Nat) (raw : List ℚ) (d j : Nat) (hj : j < m) :
    (weightsOneFeature m raw d).getD j 0 = specEntry m raw d j := by
  unfold weightsOneFeature specEntry
  by_cases h1 : raw.length = m
  · simp [h1]
  · simp only [if_neg h1, List.getD_eq_getElem?_getD]
    rw [List.getElem?_take_of_lt hj, List.getElem?_drop]

theorem weightsOneFeature_sum (m nw : Nat) (raw : List ℚ) (d : Nat) (hd : d < nw)
    (h : raw.length = m ∨ raw.length = m * nw) :
    (weightsOneFeature m raw d).sum = specRowSum m raw d := by
  rw [sum_eq_sum_range _ m (weightsOneFeature_length m nw raw d hd h)]
  unfold specRowSum
  apply Finset.sum_congr rfl
  intro j hj
  exact weightsOneFeature_getD m raw d j (Finset.mem_range.mp hj)

/-- What `raw_weights` holds when the request override has a valid length. -/
theorem rawWeights_override (m nw : Nat) (w : List ℚ) (config : Option (List ℚ))
    (hne : w ≠ []) (hlen : w.length = m ∨ w.length = m * nw) :
    rawWeights m nw ⟨some w, config⟩ = ([], some w) := by
  have h0 : w.length ≠ 0 := by
    intro h; exact hne (List.length_eq_zero.mp h)
  have h1 : ¬ (w.length ≠ m ∧ w.length ≠ m * nw) := by
    rintro ⟨a, b⟩; rcases hlen with h | h
    · exact a h
    · exact b h
  simp [rawWeights, selectWeightsPtr, resolveRawWeights, h0, h1]

/-- What the second check of `getWeights` receives when the override is not usable: the
configuration weights. -/
theorem selectWeightsPtr_fallback (m nw : Nat) (sd : StaticData)
    (h : ∀ w, sd.temporaryMultiModelWeightsVector = some w →
      w = [] ∨ (w.length ≠ m ∧ w.length ≠ m * nw)) :
    (selectWeightsPtr m nw sd).2 = sd.multiModelWeightsVector := by
  unfold selectWeightsPtr
  cases hw : sd.temporaryMultiModelWeightsVector with
  | none => rfl
  | some w =>
    simp only
    rcases h w hw with h1 | h1
    · subst h1; simp
    · by_cases h0 : w.length = 0
      · simp [h0]
      · simp [h0, h1]

/-- Whatever `raw_weights` holds at line 243 has one weight per model, or one per feature
and model. -/
theorem rawWeights_length (m nw : Nat) (sd : StaticData) (raw : List ℚ)
    (h : (rawWeights m nw sd).2 = some raw) :
    raw.length = m ∨ raw.length = m * nw := by
  unfold rawWeights at h
  simp only at h
  generalize (selectWeightsPtr m nw sd).2 = ptr at h
  unfold resolveRawWeights at h
  cases ptr with
  | none =>
    simp only [Option.some.injEq] at h
    subst h; left; simp [uniformWeights_eq]
  | some w =>
    simp only at h
    by_cases h0 : w.length = 0
    · simp only [h0, if_true, Option.some.injEq] at h
      subst h; left; simp [uniformWeights_eq]
    · by_cases h1 : w.length ≠ m ∧ w.length ≠ m * nw
      · simp [h0, h1] at h
      · simp only [h0, h1, if_false, Option.some.injEq] at h
        subst h
        by_contra hc
        push_neg at hc
        exact h1 hc

/-! ## The properties -/

/-- C1: for every entry of the aggregated map and every weighted dimension
`d < numScoreComponents - 1`, the score vector that
`CreateTargetPhraseCollectionLinearInterpolation` stores on the entry's target phrase has,
at position `d`, `TransformScore` applied to the sum over all models `m` of
`matrix[d][m] * weights[d][m]`. -/
theorem C1_interpolated_score {P : Type} (TransformScore : Flt → Flt)
    (numScoreComponents numModels : Nat) (allStats : StatsMap P)
    (weights : List (List Flt)) (k d : Nat) (entry : String × multiModelStatistics P)
    (hk : allStats[k]? = some entry) (hd : d < numScoreComponents - 1)
    (hrow : (entry.2.p.getD d []).length = numModels)
    (hw : (weights.getD d []).length = numModels) :
    ∃ tp scoreVector,
      (CreateTargetPhraseCollectionLinearInterpolation TransformScore numScoreComponents
        allStats weights)[k]? = some tp ∧
      tp.payload = entry.2.targetPhrase.payload ∧
      storedScores tp = some scoreVector ∧
      scoreVector[d]? =
        some (TransformScore (weightedSum numModels (entry.2.p.getD d []) (weights.getD d []))) := by
  refine ⟨SetScore entry.2.targetPhrase
    (combinedScoreVector TransformScore numScoreComponents entry.2.p weights),
    combinedScoreVector TransformScore numScoreComponents entry.2.p weights, ?_, rfl,
    storedScores_SetScore _ _, ?_⟩
  · rw [CreateTargetPhraseCollectionLinearInterpolation_eq_map, List.getElem?_map, hk]
    rfl
  · rw [combinedScoreVector_getElem?_lt _ _ _ _ _ hd,
      inner_product_eq_weightedSum numModels _ _ hrow hw]

/-- C1 at the example of the specification: linear scores `0.4` and `0.6` with weights
`[0.25, 0.75]` give the transform of `0.55`. -/
theorem C1_interpolated_score_witness :
    ∃ tp scoreVector,
      (CreateTargetPhraseCollectionLinearInterpolation TransformScoreStandIn 2
        exampleStats exampleWeights)[0]? = some tp ∧
      storedScores tp = some scoreVector ∧
      scoreVector[0]? = some (TransformScoreStandIn (Flt.fin (11 / 20))) := by
  obtain ⟨tp, sv, h1, _, h3, h4⟩ :=
    C1_interpolated_score TransformScoreStandIn 2 2 exampleStats exampleWeights 0 0
      ("a", { targetPhrase := { stringRep := "a", payload := (), scores := [], setScoreCalls := [] }
              p := [[Flt.fin (2 / 5), Flt.fin (3 / 5)], [Flt.fin 0, Flt.fin 0]] })
      rfl (by decide) rfl rfl
  refine ⟨tp, sv, h1, h3, ?_⟩
  rw [h4]
  norm_num [weightedSum, exampleWeights, Flt.mul, Flt.add, List.range_succ]

/-- The resolved row `d` of a vector that passed the length check, entry by entry. -/
theorem resolvedRow_getElem? (m nw : Nat) (normalize : Bool) (raw : List ℚ) (d j : Nat)
    (hd : d < nw) (hj : j < m) (h : raw.length = m ∨ raw.length = m * nw) :
    (if normalize then normalizeWeights m (weightsOneFeature m raw d)
      else (weightsOneFeature m raw d).map Flt.fin)[j]? =
      some (specWeight m normalize raw d j) := by
  have hlen := weightsOneFeature_length m nw raw d hd h
  have hj2 : j < (weightsOneFeature m raw d).length := by omega
  have hget : (weightsOneFeature m raw d)[j]? = some (specEntry m raw d j) := by
    rw [← weightsOneFeature_getD m raw d j hj, List.getD_eq_getElem?_getD,
      List.getElem?_eq_getElem hj2]
    simp
  unfold specWeight
  cases normalize with
  | false => simp [hget]
  | true =>
    simp only [if_true]
    rw [normalizeWeights_eq_map m _ hlen, List.getElem?_map, hget, accumulate_eq_sum,
      weightsOneFeature_sum m nw raw d hd h]
    rfl

theorem resolvedRow_length (m nw : Nat) (normalize : Bool) (raw : List ℚ) (d : Nat)
    (hd : d < nw) (h : raw.length = m ∨ raw.length = m * nw) :
    (if normalize then normalizeWeights m (weightsOneFeature m raw d)
      else (weightsOneFeature m raw d).map Flt.fin).length = m := by
  have hlen := weightsOneFeature_length m nw raw d hd h
  cases normalize with
  | false => simpa using hlen
  | true =>
    simp only [if_true]
    rw [normalizeWeights_eq_map m _ hlen]
    simpa using hlen

theorem buildWeightMatrix_length (m nw : Nat) (normalize : Bool) (raw : List ℚ) :
    (buildWeightMatrix m nw normalize raw).length = nw := by
  rw [buildWeightMatrix_eq_map]; simp

/-- C2: with a non-empty request override of length `numModels` or `numModels*numWeights`,
whatever the configuration weights hold, `getWeights` returns a matrix of `numWeights`
rows of `numModels` entries built from the override alone: entry `[d][j]` is `override[j]`
(length `numModels`) or `override[d*numModels + j]` (length `numModels*numWeights`),
divided by the sum of its row when `normalize` is true. -/
theorem C2_valid_override_is_used (numModels numWeights : Nat) (normalize : Bool)
    (override : List ℚ) (config : Option (List ℚ)) (hne : override ≠ [])
    (hlen : override.length = numModels ∨ override.length = numModels * numWeights) :
    ∃ M, (getWeights numModels ⟨some override, config⟩ numWeights normalize).result = some M ∧
      M.length = numWeights ∧
      ∀ d, d < numWeights → ∃ row, M[d]? = some row ∧ row.length = numModels ∧
        ∀ j, j < numModels → row[j]? = some (specWeight numModels normalize override d j) := by
  refine ⟨buildWeightMatrix numModels numWeights normalize override, ?_,
    buildWeightMatrix_length _ _ _ _, ?_⟩
  · simp [getWeights, rawWeights_override numModels numWeights override config hne hlen]
  · intro d hd
    refine ⟨_, buildWeightMatrix_getElem? numModels numWeights normalize override d hd,
      resolvedRow_length numModels numWeights normalize override d hd hlen, ?_⟩
    intro j hj
    exact resolvedRow_getElem? numModels numWeights normalize override d j hd hj hlen

/-- C2 at a concrete input: two models, two weighted dimensions, the full-matrix override
`[1, 3, 2, 2]`, normalised, against configuration weights of a wrong length. -/
theorem C2_valid_override_is_used_witness :
    ∃ M, (getWeights 2 ⟨some [1, 3, 2, 2], some [5, 5, 5]⟩ 2 true).result = some M ∧
      M.length = 2 ∧
      ∀ d, d < 2 → ∃ row, M[d]? = some row ∧ row.length = 2 ∧
        ∀ j, j < 2 → row[j]? = some (specWeight 2 true [1, 3, 2, 2] d j) :=
  C2_valid_override_is_used 2 2 true [1, 3, 2, 2] (some [5, 5, 5]) (by simp) (Or.inr rfl)

/-- An override of invalid length leaves the result what it is without an override. -/
theorem getWeights_result_invalid_override (numModels numWeights : Nat) (normalize : Bool)
    (override : List ℚ) (config : Option (List ℚ))
    (h1 : override.length ≠ numModels) (h2 : override.length ≠ numModels * numWeights) :
    (getWeights numModels ⟨some override, config⟩ numWeights normalize).result =
        (getWeights numModels ⟨none, config⟩ numWeights normalize).result ∧
      (getWeights numModels ⟨some override, config⟩ numWeights normalize).result =
        (getWeights numModels ⟨some [], config⟩ numWeights normalize).result := by
  have e1 : (selectWeightsPtr numModels numWeights ⟨some override, config⟩).2 = config :=
    selectWeightsPtr_fallback numModels numWeights ⟨some override, config⟩
      (fun w hw => by
        simp only [Option.some.injEq] at hw
        subst hw
        exact Or.inr ⟨h1, h2⟩)
  have e2 : (selectWeightsPtr numModels numWeights ⟨none, config⟩).2 = config := rfl
  have e3 : (selectWeightsPtr numModels numWeights ⟨some [], config⟩).2 = config := by
    simp [selectWeightsPtr]
  simp only [getWeights, rawWeights, e1, e2, e3, and_self]

/-- C3: a request override whose length is neither `numModels` nor `numModels*numWeights`
gives, for every configuration and both values of `normalize`, the same outcome (the same
matrix or the same abort) as an absent override and as an empty override. -/
theorem C3_invalid_override_falls_back (numModels numWeights : Nat) (normalize : Bool)
    (override : List ℚ) (config : Option (List ℚ))
    (h1 : override.length ≠ numModels) (h2 : override.length ≠ numModels * numWeights) :
    (getWeights numModels ⟨some override, config⟩ numWeights normalize).result =
        (getWeights numModels ⟨none, config⟩ numWeights normalize).result ∧
      (getWeights numModels ⟨some override, config⟩ numWeights normalize).result =
        (getWeights numModels ⟨some [], config⟩ numWeights normalize).result :=
  getWeights_result_invalid_override numModels numWeights normalize override config h1 h2

/-- C3 at the example of the specification: three models and an override of length two. -/
theorem C3_invalid_override_falls_back_witness :
    (getWeights 3 ⟨some [1, 2], some [1, 2, 3]⟩ 1 true).result =
        (getWeights 3 ⟨none, some [1, 2, 3]⟩ 1 true).result ∧
      (getWeights 3 ⟨some [1, 2], some [1, 2, 3]⟩ 1 true).result =
        (getWeights 3 ⟨some [], some [1, 2, 3]⟩ 1 true).result :=
  C3_invalid_override_falls_back 3 1 true [1, 2] (some [1, 2, 3]) (by decide) (by decide)

/-- What `raw_weights` holds when neither an override nor configuration weights exist. -/
theorem rawWeights_uniform (m nw : Nat) (sd : StaticData)
    (hov : sd.temporaryMultiModelWeightsVector = none ∨
      sd.temporaryMultiModelWeightsVector = some [])
    (hcfg : sd.multiModelWeightsVector = none ∨ sd.multiModelWeightsVector = some []) :
    rawWeights m nw sd = ([], some (List.replicate m (1 / (m : ℚ)))) := by
  have hsel : selectWeightsPtr m nw sd = ([], sd.multiModelWeightsVector) := by
    unfold selectWeightsPtr
    rcases hov with h | h <;> simp [h]
  unfold rawWeights
  simp only [hsel]
  rcases hcfg with h | h <;> simp [h, resolveRawWeights, uniformWeights_eq]

theorem Flt.div_of_ne_zero (a b : ℚ) (hb : b ≠ 0) : Flt.div a b = Flt.fin (a / b) := by
  simp [Flt.div, hb]

theorem Flt.div_zero (a : ℚ) : Flt.div a 0 = Flt.nonfin := by
  simp [Flt.div]

theorem Flt.sum_map_fin (f : ℚ → ℚ) (ws : List ℚ) :
    Flt.sum (ws.map (fun w => Flt.fin (f w))) = Flt.fin ((ws.map f).sum) := by
  induction ws with
  | nil => simp [Flt.sum]
  | cons w ws ih =>
    simp only [Flt.sum, List.map_cons, List.foldr_cons, List.sum_cons] at ih ⊢
    rw [ih]
    simp [Flt.add]

theorem sum_map_div (ws : List ℚ) (t : ℚ) : (ws.map (fun w => w / t)).sum = ws.sum / t := by
  induction ws with
  | nil => simp
  | cons w ws ih => simp [ih, add_div]

/-- A row with one weight per model and a non-zero total: every weight is divided by the
total, and the results sum to one. -/
theorem normalizeWeights_of_sum_ne_zero (m : Nat) (weights : List ℚ) (h : weights.length = m)
    (hsum : weights.sum ≠ 0) :
    normalizeWeights m weights = weights.map (fun w => Flt.fin (w / weights.sum)) ∧
      Flt.sum (normalizeWeights m weights) = Flt.fin 1 := by
  have e : normalizeWeights m weights = weights.map (fun w => Flt.fin (w / weights.sum)) := by
    rw [normalizeWeights_eq_map m weights h, accumulate_eq_sum]
    apply List.map_congr_left
    intro w _
    exact Flt.div_of_ne_zero w _ hsum
  refine ⟨e, ?_⟩
  rw [e, Flt.sum_map_fin (fun w => w / weights.sum), sum_map_div, div_self hsum]

/-- A row with one weight per model and total zero: every entry of the result is non-finite. -/
theorem normalizeWeights_of_sum_eq_zero (m : Nat) (weights : List ℚ) (h : weights.length = m)
    (hsum : weights.sum = 0) :
    normalizeWeights m weights = List.replicate m Flt.nonfin := by
  rw [normalizeWeights_eq_map m weights h, accumulate_eq_sum, hsum]
  apply List.ext_getElem?
  intro j
  rw [List.getElem?_map, List.getElem?_replicate]
  by_cases hj : j < m
  · have hj2 : j < weights.length := by omega
    simp [hj, List.getElem?_eq_getElem hj2, Flt.div_zero]
  · have hj2 : weights.length ≤ j := by omega
    simp [hj, List.getElem?_eq_none hj2]

/-- When `getWeights` aborts, and what it returns otherwise. -/
theorem getWeights_abort_iff (numModels numWeights : Nat) (normalize : Bool)
    (sd : StaticData) :
    ((getWeights numModels sd numWeights normalize).result = none ↔
      ((∀ w, sd.temporaryMultiModelWeightsVector = some w →
          w = [] ∨ (w.length ≠ numModels ∧ w.length ≠ numModels * numWeights)) ∧
        ∃ c, sd.multiModelWeightsVector = some c ∧ c ≠ [] ∧
          c.length ≠ numModels ∧ c.length ≠ numModels * numWeights)) ∧
    ((getWeights numModels sd numWeights normalize).result = none ∨
      ∃ M, (getWeights numModels sd numWeights normalize).result = some M ∧
        M.length = numWeights) := by
  have hres : ∀ ptr : Option (List ℚ),
      ((resolveRawWeights numModels numWeights ptr).2 = none ↔
        ∃ c, ptr = some c ∧ c ≠ [] ∧ c.length ≠ numModels ∧
          c.length ≠ numModels * numWeights) := by
    intro ptr
    cases ptr with
    | none => simp [resolveRawWeights]
    | some c =>
      by_cases h0 : c.length = 0
      · have : c = [] := List.length_eq_zero.mp h0
        simp [resolveRawWeights, this]
      · have hc : c ≠ [] := fun h => h0 (by rw [h]; rfl)
        by_cases h1 : c.length ≠ numModels ∧ c.length ≠ numModels * numWeights
        · simp [resolveRawWeights, h0, h1, hc]
        · simp only [resolveRawWeights, h0, h1, if_false, Option.some.injEq, exists_eq_left']
          constructor
          · intro h; exact absurd h (by simp)
          · intro h
            exact h.2.elim
  constructor
  · simp only [getWeights, rawWeights, Option.map_eq_none']
    rw [hres]
    constructor
    · rintro ⟨c, hc, hne, h1, h2⟩
      by_cases hu : ∀ w, sd.temporaryMultiModelWeightsVector = some w →
          w = [] ∨ (w.length ≠ numModels ∧ w.length ≠ numModels * numWeights)
      · rw [selectWeightsPtr_fallback numModels numWeights sd hu] at hc
        exact ⟨hu, c, hc, hne, h1, h2⟩
      · exfalso
        push_neg at hu
        obtain ⟨w, hw, hwne, hwlen⟩ := hu
        have h0 : w.length ≠ 0 := fun h => hwne (List.length_eq_zero.mp h)
        have hsel : (selectWeightsPtr numModels numWeights sd).2 = some w := by
          unfold selectWeightsPtr
          have h3 : ¬ (w.length ≠ numModels ∧ w.length ≠ numModels * numWeights) := by
            rintro ⟨a, b⟩; exact b (hwlen a)
          simp [hw, h0, h3]
        rw [hsel] at hc
        simp only [Option.some.injEq] at hc
        subst hc
        exact h2 (hwlen h1)
    · rintro ⟨hu, c, hc, hne, h1, h2⟩
      rw [selectWeightsPtr_fallback numModels numWeights sd hu]
      exact ⟨c, hc, hne, h1, h2⟩
  · cases hr : (getWeights numModels sd numWeights normalize).result with
    | none => exact Or.inl rfl
    | some M =>
      refine Or.inr ⟨M, rfl, ?_⟩
      simp only [getWeights, Option.map_eq_some'] at hr
      obtain ⟨raw, _, hM⟩ := hr
      rw [← hM, buildWeightMatrix_length]

/-- C5: `getWeights` stops at `CHECK(false)` exactly when the request override is not usable
(absent, empty, or of a length that is neither `numModels` nor `numModels*numWeights`) and
the configuration weights are non-empty with a length that is neither `numModels` nor
`numModels*numWeights`; in every other case it returns a weight matrix. -/
theorem C5_fatal_iff_malformed_config (numModels numWeights : Nat) (normalize : Bool)
    (sd : StaticData) :
    ((getWeights numModels sd numWeights normalize).result = none ↔
      ((∀ w, sd.temporaryMultiModelWeightsVector = some w →
          w = [] ∨ (w.length ≠ numModels ∧ w.length ≠ numModels * numWeights)) ∧
        ∃ c, sd.multiModelWeightsVector = some c ∧ c ≠ [] ∧
          c.length ≠ numModels ∧ c.length ≠ numModels * numWeights)) ∧
    ((getWeights numModels sd numWeights normalize).result = none ∨
      ∃ M, (getWeights numModels sd numWeights normalize).result = some M ∧
        M.length = numWeights) :=
  getWeights_abort_iff numModels numWeights normalize sd

/-- The messages recorded when the override has an invalid length and the configuration
weights pass the second check. -/
theorem getWeights_messages_invalid_override (numModels numWeights : Nat) (normalize : Bool)
    (override : List ℚ) (config : Option (List ℚ))
    (h1 : override.length ≠ numModels) (h2 : override.length ≠ numModels * numWeights)
    (hcfg : ∀ c, config = some c →
      c = [] ∨ c.length = numModels ∨ c.length = numModels * numWeights) :
    (getWeights numModels ⟨some override, config⟩ numWeights normalize).messages =
      if override = [] then []
      else [UserMessage.revertingToConfig numModels numWeights 0] := by
  have hraw : (resolveRawWeights numModels numWeights config).1 = [] := by
    cases config with
    | none => rfl
    | some c =>
      rcases hcfg c rfl with h | h
      · subst h; simp [resolveRawWeights]
      · by_cases h0 : c.length = 0
        · simp [resolveRawWeights, h0]
        · have h3 : ¬ (c.length ≠ numModels ∧ c.length ≠ numModels * numWeights) := by
            rintro ⟨a, b⟩; rcases h with h | h
            · exact a h
            · exact b h
          simp [resolveRawWeights, h0, h3]
  by_cases he : override = []
  · subst he
    simp [getWeights, rawWeights, selectWeightsPtr, hraw]
  · have h0 : override.length ≠ 0 := fun h => he (List.length_eq_zero.mp h)
    simp [getWeights, rawWeights, selectWeightsPtr, hraw, he, h0, h1, h2]

/-- C6 (amended): a request override whose length is neither `numModels` nor
`numModels*numWeights` does not make `getWeights` fail as long as the configuration
weights are absent, empty or of a valid length: the call records one warning (none when the
override is empty) and returns the weight matrix resolved by the fallback, the one it
returns without an override. -/
theorem C6_invalid_override_does_not_abort (numModels numWeights : Nat) (normalize : Bool)
    (override : List ℚ) (config : Option (List ℚ))
    (h1 : override.length ≠ numModels) (h2 : override.length ≠ numModels * numWeights)
    (hcfg : ∀ c, config = some c →
      c = [] ∨ c.length = numModels ∨ c.length = numModels * numWeights) :
    (getWeights numModels ⟨some override, config⟩ numWeights normalize).messages =
        (if override = [] then []
         else [UserMessage.revertingToConfig numModels numWeights 0]) ∧
      ∃ M, (getWeights numModels ⟨some override, config⟩ numWeights normalize).result = some M ∧
        (getWeights numModels ⟨none, config⟩ numWeights normalize).result = some M := by
  refine ⟨getWeights_messages_invalid_override numModels numWeights normalize override config
    h1 h2 hcfg, ?_⟩
  have hfb := (getWeights_result_invalid_override numModels numWeights normalize override
    config h1 h2).1
  rcases (getWeights_abort_iff numModels numWeights normalize ⟨none, config⟩).2 with hn | hs
  · exfalso
    obtain ⟨_, c, hc, hne, ha, hb⟩ :=
      (getWeights_abort_iff numModels numWeights normalize ⟨none, config⟩).1.mp hn
    rcases hcfg c hc with h | h | h
    · exact hne h
    · exact ha h
    · exact hb h
  · obtain ⟨M, hM, _⟩ := hs
    exact ⟨M, hfb.trans hM, hM⟩

/-- C6 (amended) at a concrete input: three models, an override of length two, valid
configuration weights. -/
theorem C6_invalid_override_does_not_abort_witness :
    (getWeights 3 ⟨some [1, 2], some [1, 2, 3]⟩ 1 false).messages =
        [UserMessage.revertingToConfig 3 1 0] ∧
      ∃ M, (getWeights 3 ⟨some [1, 2], some [1, 2, 3]⟩ 1 false).result = some M ∧
        (getWeights 3 ⟨none, some [1, 2, 3]⟩ 1 false).result = some M := by
  have h := C6_invalid_override_does_not_abort 3 1 false [1, 2] (some [1, 2, 3])
    (by decide) (by decide) (by intro c hc; cases hc; right; left; rfl)
  simpa using h

/-- C6 as stated fails: with three models, an override of length two and configuration
weights of length two, `getWeights` stops at `CHECK(false)`; and an empty override, whose
length is neither 3 nor 3*1, records no warning. -/
theorem C6_counterexample :
    (getWeights 3 ⟨some [1, 2], some [1, 2]⟩ 1 true).result = none ∧
      (getWeights 3 ⟨some [], none⟩ 1 true).messages = [] := by
  constructor <;> simp [getWeights, rawWeights, selectWeightsPtr, resolveRawWeights]

/-- Row `d` of the matrix `getWeights` returns with `normalize = true`, from the content of
`raw_weights`. -/
theorem getWeights_normalized_row (m nw : Nat) (sd : StaticData) (raw : List ℚ) (d : Nat)
    (hraw : (rawWeights m nw sd).2 = some raw) (hd : d < nw) :
    ∃ M, (getWeights m sd nw true).result = some M ∧
      M[d]? = some (normalizeWeights m (weightsOneFeature m raw d)) ∧
      (weightsOneFeature m raw d).length = m ∧
      (weightsOneFeature m raw d).sum = specRowSum m raw d := by
  have hlen := rawWeights_length m nw sd raw hraw
  refine ⟨buildWeightMatrix m nw true raw, ?_, ?_,
    weightsOneFeature_length m nw raw d hd hlen, weightsOneFeature_sum m nw raw d hd hlen⟩
  · simp [getWeights, hraw]
  · rw [buildWeightMatrix_getElem? m nw true raw d hd]
    rfl

/-- C7 (amended): `getWeights` has no zero-sum validation.  When `normalize` is true, the
selected weights pass the length check and row `d` of them sums to zero, the call does not
reject the input: it returns a matrix, and every entry of row `d` is the non-finite result
of the division by the zero total in `normalizeWeights`. -/
theorem C7_zero_sum_row_is_divided (numModels numWeights : Nat) (sd : StaticData)
    (raw : List ℚ) (d : Nat)
    (hraw : (rawWeights numModels numWeights sd).2 = some raw) (hd : d < numWeights)
    (hzero : specRowSum numModels raw d = 0) :
    ∃ M, (getWeights numModels sd numWeights true).result = some M ∧
      M[d]? = some (List.replicate numModels Flt.nonfin) := by
  obtain ⟨M, hM, hrow, hlen, hsum⟩ :=
    getWeights_normalized_row numModels numWeights sd raw d hraw hd
  refine ⟨M, hM, ?_⟩
  rw [hrow, normalizeWeights_of_sum_eq_zero numModels _ hlen (hsum.trans hzero)]

/-- C7 (amended) at a concrete input: two models, two weighted dimensions, configuration
weights `[0, 0, 1, 1]`; row 0 sums to zero and comes back non-finite. -/
theorem C7_zero_sum_row_is_divided_witness :
    ∃ M, (getWeights 2 ⟨none, some [0, 0, 1, 1]⟩ 2 true).result = some M ∧
      M[0]? = some [Flt.nonfin, Flt.nonfin] :=
  C7_zero_sum_row_is_divided 2 2 ⟨none, some [0, 0, 1, 1]⟩ [0, 0, 1, 1] 0
    (by simp [rawWeights, selectWeightsPtr, resolveRawWeights]) (by decide)
    (by simp [specRowSum, specEntry, Finset.sum_range_succ])

/-- C7 as stated fails: with two models, configuration weights `[1, -1]` (sum zero) and
`normalize = true`, `getWeights` does not reject the input; it returns a matrix whose
entries are the results of dividing by zero. -/
theorem C7_counterexample :
    (getWeights 2 ⟨none, some [1, -1]⟩ 1 true).result =
      some [[Flt.nonfin, Flt.nonfin]] := by
  have hraw : (rawWeights 2 1 ⟨none, some [1, -1]⟩).2 = some [1, -1] := by
    simp [rawWeights, selectWeightsPtr, resolveRawWeights]
  obtain ⟨M, hM, hrow, hlen, hsum⟩ :=
    getWeights_normalized_row 2 1 ⟨none, some [1, -1]⟩ [1, -1] 0 hraw (by decide)
  have hM1 : M.length = 1 := by
    have h := hM
    simp only [getWeights, hraw, Option.map_some', Option.some.injEq] at h
    rw [← h, buildWeightMatrix_length]
  have hz : (weightsOneFeature 2 [1, -1] 0).sum = 0 := by
    simp [weightsOneFeature]
  rw [normalizeWeights_of_sum_eq_zero 2 _ hlen hz] at hrow
  rw [hM]
  congr 1
  match M, hM1, hrow with
  | [row], _, h =>
    simp only [List.getElem?_cons_zero, Option.some.injEq] at h
    rw [h]; rfl

/-- C9 (amended): for every entry of the aggregated map, every weight matrix and every
`TransformScore`, the last position (index `numScoreComponents - 1`) of the score vector
that `CreateTargetPhraseCollectionLinearInterpolation` stores is the literal `1.0` (the
log-domain value of the fixed phrase penalty 2.718), independently of the weights and of
the per-model scores. -/
theorem C9_last_position_is_one {P : Type} (TransformScore : Flt → Flt)
    (numScoreComponents : Nat) (allStats : StatsMap P) (weights : List (List Flt)) (k : Nat)
    (entry : String × multiModelStatistics P)
    (hk : allStats[k]? = some entry) (hn : 1 ≤ numScoreComponents) :
    ∃ tp scoreVector,
      (CreateTargetPhraseCollectionLinearInterpolation TransformScore numScoreComponents
        allStats weights)[k]? = some tp ∧
      storedScores tp = some scoreVector ∧
      scoreVector.length = numScoreComponents ∧
      scoreVector[numScoreComponents - 1]? = some (Flt.fin 1) := by
  refine ⟨SetScore entry.2.targetPhrase
    (combinedScoreVector TransformScore numScoreComponents entry.2.p weights),
    combinedScoreVector TransformScore numScoreComponents entry.2.p weights, ?_,
    storedScores_SetScore _ _, combinedScoreVector_length _ _ _ _,
    combinedScoreVector_getElem?_last _ _ _ _ hn⟩
  rw [CreateTargetPhraseCollectionLinearInterpolation_eq_map, List.getElem?_map, hk]
  rfl

/-- C9 (amended) at the example data: two score components, the last position is `1`. -/
theorem C9_last_position_is_one_witness :
    ∃ tp scoreVector,
      (CreateTargetPhraseCollectionLinearInterpolation TransformScoreStandIn 2
        exampleStats exampleWeights)[0]? = some tp ∧
      storedScores tp = some scoreVector ∧
      scoreVector.length = 2 ∧
      scoreVector[1]? = some (Flt.fin 1) :=
  C9_last_position_is_one TransformScoreStandIn 2 exampleStats exampleWeights 0
    ("a", { targetPhrase := { stringRep := "a", payload := (), scores := [], setScoreCalls := [] }
            p := [[Flt.fin (2 / 5), Flt.fin (3 / 5)], [Flt.fin 0, Flt.fin 0]] })
    rfl (by decide)

/-- C9 as stated fails: on the example data the last position of the stored score vector
is `1`, while the transform of `1.0` is `0`. -/
theorem C9_counterexample :
    (CreateTargetPhraseCollectionLinearInterpolation TransformScoreStandIn 2
        exampleStats exampleWeights).map (fun tp => (storedScores tp).bind (fun sv => sv[1]?)) =
      [some (Flt.fin 1)] ∧
    TransformScoreStandIn (Flt.fin 1) = Flt.fin 0 ∧
    Flt.fin 1 ≠ TransformScoreStandIn (Flt.fin 1) := by
  refine ⟨?_, ?_, ?_⟩
  · rw [CreateTargetPhraseCollectionLinearInterpolation_eq_map]
    simp only [exampleStats, List.map_cons, List.map_nil, storedScores_SetScore,
      Option.some_bind]
    rw [combinedScoreVector_getElem?_last TransformScoreStandIn 2 _ _ (by decide)]
  · norm_num [TransformScoreStandIn]
  · norm_num [TransformScoreStandIn]

/-! ## Lemmas on the aggregation loop -/

/-- An iterator that runs over the first `k` positions of a vector visits `take k` of it. -/
theorem foldl_range_getElem?_eq_foldl_take {α β : Type} (f : β → α → β) (l : List α) (k : Nat)
    (init : β) :
    (List.range k).foldl
        (fun st it => match l[it]? with
          | some x => f st x
          | none => st) init =
      (l.take k).foldl f init := by
  induction k with
  | zero => simp
  | succ k ih =>
    rw [List.range_succ, List.foldl_append, ih, List.take_succ, List.foldl_append]
    simp only [List.foldl_cons, List.foldl_nil]
    cases l[k]? <;> simp

/-- The loop over one backend folds the loop body over the considered candidates. -/
theorem aggregateBackend_eq_foldl {P : Type} (U : Flt → Flt) (n m limit : Nat)
    (allStats : StatsMap P) (i : Nat) (cands : List (TargetPhrase P)) :
    aggregateBackend U n m limit allStats i (some cands) =
      (consideredCandidates limit cands).foldl (aggregateCandidate U n m i) allStats := by
  unfold aggregateBackend
  simp only
  refine Eq.trans ?_ ((foldl_range_getElem?_eq_foldl_take (aggregateCandidate U n m i) cands
    (iterLast limit cands.length) allStats).trans ?_)
  · congr 1
    funext st it
    cases cands[it]? <;> rfl
  unfold iterLast consideredCandidates
  by_cases h : limit ≠ 0 ∧ cands.length > limit
  · rw [if_pos h, if_pos ⟨h.1, h.2⟩]
  · have h2 : ¬ (limit ≠ 0 ∧ limit < cands.length) := fun hc => h ⟨hc.1, hc.2⟩
    rw [if_neg h, if_neg h2, List.take_length]

/-- Two results of a backend with the same considered candidates aggregate alike. -/
theorem aggregateBackend_congr {P : Type} (U : Flt → Flt) (n m limit : Nat)
    (allStats : StatsMap P) (i : Nat) (x y : Option (List (TargetPhrase P)))
    (h : x.map (consideredCandidates limit) = y.map (consideredCandidates limit)) :
    aggregateBackend U n m limit allStats i x = aggregateBackend U n m limit allStats i y := by
  cases x with
  | none =>
    cases y with
    | none => rfl
    | some b => simp at h
  | some a =>
    cases y with
    | none => simp at h
    | some b =>
      simp only [Option.map_some', Option.some.injEq] at h
      rw [aggregateBackend_eq_foldl, aggregateBackend_eq_foldl, h]

/-- Lookups with the same considered candidates, backend by backend, aggregate alike. -/
theorem aggregate_congr {P : Type} (U : Flt → Flt) (n m limit : Nat)
    (lookups1 lookups2 : List (Option (List (TargetPhrase P))))
    (h : lookups1.map (Option.map (consideredCandidates limit)) =
      lookups2.map (Option.map (consideredCandidates limit))) :
    aggregate U n m limit lookups1 = aggregate U n m limit lookups2 := by
  unfold aggregate
  apply List.foldl_ext
  intro allStats i _
  apply aggregateBackend_congr
  have hi := congrArg (fun l => l[i]?) h
  simp only [List.getElem?_map] at hi
  simp only [List.getD_eq_getElem?_getD]
  cases h1 : lookups1[i]? <;> cases h2 : lookups2[i]? <;> simp_all

/-- C10: in `GetTargetPhraseCollection`, the loop over a backend that returned `n`
candidates runs the loop body over exactly the first `L` of them, in the backend's order,
when the per-backend limit `L` is non-zero and `n > L`, and over all `n` when `L` is zero
or `n ≤ L`; candidates beyond that have no effect on the aggregated map nor on the result
of `GetTargetPhraseCollection`. -/
theorem C10_per_backend_truncation {Src P : Type} (TransformScore UntransformScore : Flt → Flt)
    (NthElement : Nat → List (TargetPhrase P) → List (TargetPhrase P))
    (d : PhraseDictionaryMultiModel Src P) :
    (∀ (allStats : StatsMap P) (i : Nat) (cands : List (TargetPhrase P)),
      aggregateBackend UntransformScore d.m_numScoreComponent d.m_numModels
          d.m_componentTableLimit allStats i (some cands) =
        (if d.m_componentTableLimit ≠ 0 ∧ cands.length > d.m_componentTableLimit
          then cands.take d.m_componentTableLimit else cands).foldl
          (aggregateCandidate UntransformScore d.m_numScoreComponent d.m_numModels i)
          allStats) ∧
    (∀ (pd1 pd2 : List (Src → Option (List (TargetPhrase P)))) (sd : StaticData)
      (ref : PhraseCache P) (src : Src),
      pd1.map (fun pd => (pd src).map (consideredCandidates d.m_componentTableLimit)) =
        pd2.map (fun pd => (pd src).map (consideredCandidates d.m_componentTableLimit)) →
      GetTargetPhraseCollection TransformScore UntransformScore NthElement
          { d with m_pd := pd1 } sd ref src =
        GetTargetPhraseCollection TransformScore UntransformScore NthElement
          { d with m_pd := pd2 } sd ref src) := by
  constructor
  · intro allStats i cands
    rw [aggregateBackend_eq_foldl]
    rfl
  · intro pd1 pd2 sd ref src h
    unfold GetTargetPhraseCollection
    simp only
    have hagg : aggregate UntransformScore d.m_numScoreComponent d.m_numModels
        d.m_componentTableLimit (pd1.map (fun pd => pd src)) =
        aggregate UntransformScore d.m_numScoreComponent d.m_numModels
        d.m_componentTableLimit (pd2.map (fun pd => pd src)) := by
      apply aggregate_congr
      simpa [List.map_map, Function.comp_def] using h
    rw [hagg]

/-- C10 at the example of the specification: limit 2 and a backend returning five
candidates; the loop runs over the first two only. -/
theorem C10_per_backend_truncation_witness :
    aggregateBackend (fun x => x) 1 1 2 [] 0 (some exampleFive) =
      [exampleCandidate "a" 1, exampleCandidate "b" 2].foldl
        (aggregateCandidate (fun x => x) 1 1 0) [] := by
  have h := (@C10_per_backend_truncation Unit Unit TransformScoreStandIn
    (fun x => x) (fun _ l => l)
    { m_numScoreComponent := 1, m_numModels := 1, m_tableLimit := 2,
      m_componentTableLimit := 2, m_pd := [] }).1 [] 0 exampleFive
  simpa [exampleFive] using h

/-! ## Lemmas on the sentence cache -/

/-- The loop of `CleanUp` hands every collection of the cache to `delete`, in order. -/
theorem foldl_delete_eq_append {α : Type} (ref deleted : List α) :
    ref.foldl (fun deleted tpc => deleted ++ [tpc]) deleted = deleted ++ ref := by
  induction ref generalizing deleted with
  | nil => simp
  | cons a ref ih => rw [List.foldl_cons, ih]; simp

theorem CleanUp_eq {P : Type} (thread : Nat) (s : CacheState P) :
    CleanUp thread s =
      { m_sentenceCache := Function.update s.m_sentenceCache thread []
        staticData := SetTemporaryMultiModelWeightsVector s.staticData []
        deleted := s.deleted ++ s.m_sentenceCache thread } := by
  unfold CleanUp
  simp only [foldl_delete_eq_append]

/-- A `CleanUp` on a thread whose cache is empty and with the temporary weights already
empty changes nothing. -/
theorem CleanUp_of_empty {P : Type} (thread : Nat) (s : CacheState P)
    (hcache : s.m_sentenceCache thread = [])
    (htemp : s.staticData.temporaryMultiModelWeightsVector = some []) :
    CleanUp thread s = s := by
  rw [CleanUp_eq]
  cases s with
  | mk cache sd deleted =>
    cases sd with
    | mk temp config =>
      simp only at hcache htemp
      subst htemp
      simp only [SetTemporaryMultiModelWeightsVector, hcache, List.append_nil,
        CacheState.mk.injEq, and_true]
      funext t
      by_cases h : t = thread
      · subst h; simp [hcache]
      · simp [Function.update_noteq h]

/-- The cache of a thread after it adopted the collections `tpcs`, one after the other. -/
theorem foldl_CacheForCleanupBy {P : Type} (thread : Nat) (tpcs : List (List (TargetPhrase P)))
    (s : CacheState P) :
    tpcs.foldl (CacheForCleanupBy thread) s =
      { s with
        m_sentenceCache :=
          Function.update s.m_sentenceCache thread (s.m_sentenceCache thread ++ tpcs) } := by
  induction tpcs generalizing s with
  | nil => simp
  | cons tpc tpcs ih =>
    rw [List.foldl_cons, ih]
    simp [CacheForCleanupBy, CacheForCleanup]

/-- An empty request override resolves like an absent one. -/
theorem getWeights_empty_override (m nw : Nat) (normalize : Bool) (config : Option (List ℚ)) :
    (getWeights m ⟨some [], config⟩ nw normalize).result =
      (getWeights m ⟨none, config⟩ nw normalize).result := by
  simp [getWeights, rawWeights, selectWeightsPtr]

/-! ## The properties of the cache and of the rule lookup -/

/-- C13: `CleanUp` is idempotent on the cache state.  For every state and every context,
after `CleanUp` the context's list of adopted collections is empty; a second `CleanUp`
deletes nothing further and leaves the state equal to the state after the first call; and
a `CleanUp` on a context with nothing adopted deletes nothing and leaves every cache as it
is.  `CleanUp` has no failing path. -/
theorem C13_cleanup_idempotent {P : Type} (thread : Nat) (s : CacheState P) :
    (CleanUp thread s).m_sentenceCache thread = [] ∧
      CleanUp thread (CleanUp thread s) = CleanUp thread s ∧
      (CleanUp thread (CleanUp thread s)).deleted = (CleanUp thread s).deleted ∧
      (∀ other : Nat, (CleanUp thread s).m_sentenceCache other = [] →
        CleanUp other (CleanUp thread s) = CleanUp thread s) ∧
      (∀ s2 : CacheState P, s2.m_sentenceCache thread = [] →
        (CleanUp thread s2).deleted = s2.deleted ∧
          (CleanUp thread s2).m_sentenceCache = s2.m_sentenceCache) := by
  have hempty : (CleanUp thread s).m_sentenceCache thread = [] := by
    rw [CleanUp_eq]; simp
  have htemp : (CleanUp thread s).staticData.temporaryMultiModelWeightsVector = some [] := by
    rw [CleanUp_eq]; rfl
  have hidem : CleanUp thread (CleanUp thread s) = CleanUp thread s :=
    CleanUp_of_empty thread _ hempty htemp
  refine ⟨hempty, hidem, by rw [hidem], ?_, ?_⟩
  · intro other h
    exact CleanUp_of_empty other _ h htemp
  · intro s2 h
    rw [CleanUp_eq]
    refine ⟨by simp [h], ?_⟩
    funext t
    by_cases ht : t = thread
    · subst ht; simp [h]
    · simp [Function.update_noteq ht]

/-- C14: after a `CleanUp`, let the context set any override and adopt the collections
`tpcs` through `CacheForCleanup`.  The next `CleanUp` of the context deletes exactly those
collections, each once and in the order of adoption, empties the context's cache, and sets
the override to the empty vector, so that `getWeights` then resolves as with no override. -/
theorem C14_cleanup_releases_and_clears {P : Type} (thread : Nat) (s : CacheState P)
    (override : List ℚ) (tpcs : List (List (TargetPhrase P))) :
    let s0 := CleanUp thread s
    let s1 : CacheState P :=
      { s0 with staticData := SetTemporaryMultiModelWeightsVector s0.staticData override }
    let s2 := tpcs.foldl (CacheForCleanupBy thread) s1
    let s3 := CleanUp thread s2
    s2.m_sentenceCache thread = tpcs ∧
      s3.deleted = s0.deleted ++ tpcs ∧
      s3.m_sentenceCache thread = [] ∧
      s3.staticData.temporaryMultiModelWeightsVector = some [] ∧
      s3.staticData.multiModelWeightsVector = s.staticData.multiModelWeightsVector ∧
      ∀ (numModels numWeights : Nat) (normalize : Bool),
        (getWeights numModels s3.staticData numWeights normalize).result =
          (getWeights numModels ⟨none, s.staticData.multiModelWeightsVector⟩ numWeights
            normalize).result := by
  intro s0 s1 s2 s3
  have h0 : s0.m_sentenceCache thread = [] := by
    show (CleanUp thread s).m_sentenceCache thread = []
    rw [CleanUp_eq]; simp
  have h2 : s2.m_sentenceCache thread = tpcs := by
    show (tpcs.foldl (CacheForCleanupBy thread) s1).m_sentenceCache thread = tpcs
    rw [foldl_CacheForCleanupBy]
    simp [s1, h0]
  have h2d : s2.deleted = s0.deleted := by
    show (tpcs.foldl (CacheForCleanupBy thread) s1).deleted = s0.deleted
    rw [foldl_CacheForCleanupBy]
  have h2c : s2.staticData.multiModelWeightsVector = s.staticData.multiModelWeightsVector := by
    show (tpcs.foldl (CacheForCleanupBy thread) s1).staticData.multiModelWeightsVector = _
    rw [foldl_CacheForCleanupBy]
    simp only [s1, s0, CleanUp_eq, SetTemporaryMultiModelWeightsVector]
  have h3 : s3 = { m_sentenceCache := Function.update s2.m_sentenceCache thread []
                   staticData := SetTemporaryMultiModelWeightsVector s2.staticData []
                   deleted := s2.deleted ++ s2.m_sentenceCache thread } := CleanUp_eq thread s2
  have h3sd : s3.staticData = ⟨some [], s.staticData.multiModelWeightsVector⟩ := by
    rw [h3]
    simp only [SetTemporaryMultiModelWeightsVector, h2c]
  refine ⟨h2, ?_, ?_, ?_, ?_, ?_⟩
  · rw [h3]; simp only [h2, h2d]
  · rw [h3]; simp
  · rw [h3sd]
  · rw [h3sd]
  · intro numModels numWeights normalize
    rw [h3sd]
    exact getWeights_empty_override numModels numWeights normalize _

/-- C17: `CreateRuleLookupManager` ends at `CHECK(false)` for every input and every chart
cell collection; it never returns a lookup manager, nor a null pointer. -/
theorem C17_rule_lookup_is_fatal {Input Cells Manager : Type} (input : Input) (cells : Cells) :
    (CreateRuleLookupManager input cells : Option (Option Manager)) = none := by
  simp [CreateRuleLookupManager, CHECK]

/-! ## Lemmas on `Load` -/

/-- A loop over the positions of a vector visits its elements in order. -/
theorem foldl_range_getD_eq_foldl {α β : Type} (f : β → α → β) (l : List α) (d : α) (init : β) :
    (List.range l.length).foldl (fun acc i => f acc (l.getD i d)) init = l.foldl f init := by
  have key : ∀ k, k ≤ l.length →
      (List.range k).foldl (fun acc i => f acc (l.getD i d)) init = (l.take k).foldl f init := by
    intro k
    induction k with
    | zero => intro _; simp
    | succ k ih =>
      intro hk
      have hk2 : k < l.length := hk
      rw [List.range_succ, List.foldl_append, ih (Nat.le_of_lt hk2), List.take_succ,
        List.foldl_append]
      simp [List.getD_eq_getElem?_getD, List.getElem?_eq_getElem hk2]
  rw [key l.length (Nat.le_refl _), List.take_length]

theorem not_ne_colon_eq : (fun a : Char => !(a != ':')) = (fun c => c == ':') := by
  funext c
  cases h : (c == ':') <;> simp [bne, h]

theorem findDelim_lt_iff (spec : String) :
    findDelim spec < spec.toList.length ↔ ':' ∈ spec.toList := by
  unfold findDelim
  rw [List.findIdx_lt_length]
  constructor
  · rintro ⟨x, hx, hp⟩
    have : x = ':' := by simpa using hp
    rw [← this]; exact hx
  · intro h
    exact ⟨':', h, by simp⟩

theorem take_findDelim (spec : String) :
    String.mk (spec.toList.take (findDelim spec)) = specCode spec := by
  unfold findDelim specCode
  rw [List.takeWhile_eq_take_findIdx_not, not_ne_colon_eq]

theorem drop_findDelim (spec : String) :
    String.mk (spec.toList.drop (findDelim spec + 1)) = specPath spec := by
  unfold findDelim specPath
  rw [List.dropWhile_eq_drop_findIdx_not, List.drop_drop, not_ne_colon_eq, Nat.add_comm]

/-- The body of the loop of `Load` without a `':'` in the spec. -/
theorem loadTable_no_delim (env : LoadEnv) (n limit : Nat) (spec : String)
    (hd : ':' ∉ spec.toList) : loadTable env n limit spec = none := by
  have h1 : findDelim spec ≥ spec.toList.length :=
    Nat.le_of_not_lt (fun h => hd ((findDelim_lt_iff spec).mp h))
  unfold loadTable
  simp only
  rw [if_pos h1]

/-- The body of the loop of `Load` on a spec with a `':'`. -/
theorem loadTable_delim (env : LoadEnv) (n limit : Nat) (spec : String)
    (hd : ':' ∈ spec.toList) :
    loadTable env n limit spec =
      if env.Scan (specCode spec) ≠ env.Memory ∧
          (env.Scan (specCode spec) ≠ env.Compact ∨ env.WIN32 = true)
      then none else some (specBackend env n limit spec) := by
  have h1 : ¬ findDelim spec ≥ spec.toList.length :=
    Nat.not_le.mpr ((findDelim_lt_iff spec).mpr hd)
  unfold loadTable
  simp only [take_findDelim, drop_findDelim]
  rw [if_neg h1]
  unfold specBackend
  by_cases hm : env.Scan (specCode spec) = env.Memory
  · have hcond : ¬ (env.Scan (specCode spec) ≠ env.Memory ∧
        (env.Scan (specCode spec) ≠ env.Compact ∨ env.WIN32 = true)) := fun h => h.1 hm
    rw [if_pos hm, if_neg hcond, if_pos hm]
    congr 2
    by_cases h2 : env.FileExists (specPath spec) = true <;>
      by_cases h3 : env.FileExists (specPath spec ++ ".gz") = true <;> simp [h2, h3]
  · rw [if_neg hm]
    by_cases hc : env.Scan (specCode spec) = env.Compact
    · rw [if_pos hc]
      by_cases hw : env.WIN32 = true
      · rw [if_pos hw, if_pos ⟨hm, Or.inr hw⟩]
      · have hcond : ¬ (env.Scan (specCode spec) ≠ env.Memory ∧
            (env.Scan (specCode spec) ≠ env.Compact ∨ env.WIN32 = true)) := by
          rintro ⟨_, h | h⟩
          · exact h hc
          · exact hw h
        rw [if_neg hw, if_neg hcond, if_neg hm]
    · rw [if_neg hc, if_pos ⟨hm, Or.inl hc⟩]

/-- The loop that appends one constructed element per step stays aborted once aborted. -/
theorem foldl_bind_none {α β : Type} (g : α → Option β) (l : List α) :
    l.foldl (fun r x => r.bind (fun ys => (g x).map (fun y => ys ++ [y]))) none = none := by
  induction l with
  | nil => rfl
  | cons y l ih => rw [List.foldl_cons]; exact ih

/-- The loop aborts when some step aborts. -/
theorem foldl_bind_of_exists_none {α β : Type} (g : α → Option β) (l : List α) (acc : List β)
    (h : ∃ x ∈ l, g x = none) :
    l.foldl (fun r x => r.bind (fun ys => (g x).map (fun y => ys ++ [y]))) (some acc) = none := by
  induction l generalizing acc with
  | nil => obtain ⟨x, hx, _⟩ := h; exact absurd hx (List.not_mem_nil x)
  | cons x l ih =>
    rw [List.foldl_cons]
    cases hx : g x with
    | none => simp only [Option.map_none', Option.some_bind]; exact foldl_bind_none g l
    | some y =>
      simp only [Option.map_some', Option.some_bind]
      apply ih
      obtain ⟨z, hz, hg⟩ := h
      rcases List.mem_cons.mp hz with h1 | h1
      · rw [h1, hx] at hg; exact absurd hg (by simp)
      · exact ⟨z, h1, hg⟩

/-- The loop lists what the steps construct when every step succeeds. -/
theorem foldl_bind_of_forall_some {α β : Type} (g : α → Option β) (f : α → β) (l : List α)
    (acc : List β) (h : ∀ x ∈ l, g x = some (f x)) :
    l.foldl (fun r x => r.bind (fun ys => (g x).map (fun y => ys ++ [y]))) (some acc) =
      some (acc ++ l.map f) := by
  induction l generalizing acc with
  | nil => simp
  | cons x l ih =>
    rw [List.foldl_cons, h x (List.mem_cons_self _ _)]
    simp only [Option.map_some', Option.some_bind]
    rw [ih _ (fun z hz => h z (List.mem_cons_of_mem _ hz))]
    simp

/-- `Load` as the fold of the loop body over the table specs. -/
theorem Load_eq_foldl (env : LoadEnv) (n : Nat) (files : List String) (limit : Nat) :
    Load env n files limit =
      (files.foldl
        (fun (m_pd : Option (List LoadedBackend)) (spec : String) =>
          m_pd.bind (fun pds => (loadTable env n limit spec).map (fun pd => pds ++ [pd])))
        (some [])).map
        (fun pds =>
          { m_tableLimit := limit
            m_componentTableLimit := limit
            m_numModels := files.length
            m_pd := pds }) := by
  unfold Load
  simp only
  rw [foldl_range_getD_eq_foldl
    (fun (m_pd : Option (List LoadedBackend)) (spec : String) =>
      m_pd.bind (fun pds => (loadTable env n limit spec).map (fun pd => pds ++ [pd])))
    files "" (some [])]

/-- `Load` aborts when some table spec is rejected. -/
theorem Load_of_rejected (env : LoadEnv) (n : Nat) (files : List String) (limit : Nat)
    (h : ∃ spec ∈ files, ':' ∉ spec.toList ∨
      (env.Scan (specCode spec) ≠ env.Memory ∧
        (env.Scan (specCode spec) ≠ env.Compact ∨ env.WIN32 = true))) :
    Load env n files limit = none := by
  rw [Load_eq_foldl, foldl_bind_of_exists_none (loadTable env n limit) files []]
  · rfl
  · obtain ⟨spec, hs, hbad⟩ := h
    refine ⟨spec, hs, ?_⟩
    by_cases hd : ':' ∈ spec.toList
    · rw [loadTable_delim env n limit spec hd]
      rcases hbad with hb | hb
      · exact absurd hd hb
      · rw [if_pos hb]
    · exact loadTable_no_delim env n limit spec hd

/-- `Load` constructs one backend per table spec when no spec is rejected. -/
theorem Load_of_accepted (env : LoadEnv) (n : Nat) (files : List String) (limit : Nat)
    (h : ∀ spec ∈ files, ':' ∈ spec.toList ∧
      (env.Scan (specCode spec) = env.Memory ∨
        (env.Scan (specCode spec) = env.Compact ∧ env.WIN32 = false))) :
    Load env n files limit =
      some { m_tableLimit := limit
             m_componentTableLimit := limit
             m_numModels := files.length
             m_pd := files.map (specBackend env n limit) } := by
  rw [Load_eq_foldl, foldl_bind_of_forall_some (loadTable env n limit)
    (specBackend env n limit) files []]
  · rfl
  · intro spec hs
    obtain ⟨hd, hok⟩ := h spec hs
    rw [loadTable_delim env n limit spec hd]
    have hcond : ¬ (env.Scan (specCode spec) ≠ env.Memory ∧
        (env.Scan (specCode spec) ≠ env.Compact ∨ env.WIN32 = true)) := by
      rintro ⟨h1, h2⟩
      rcases hok with hm | ⟨hc, hw⟩
      · exact h1 hm
      · rcases h2 with h2 | h2
        · exact h2 hc
        · rw [hw] at h2; exact absurd h2 (by simp)
    rw [if_neg hcond]

/-- C15 (amended): `Load` fails fatally if and only if some table spec contains no `':'`, or
has before its first `':'` a code that is neither `Memory` nor `Compact`, or has the code
`Compact` in a build that defines `WIN32`.  Otherwise it returns true having constructed
exactly one backend per spec, in the order of `files`; a compact table is loaded from
everything after the first `':'`, a memory table from that path, or from that path with
`".gz"` appended when the path does not exist and the `".gz"` file does. -/
theorem C15_load_fatal_iff (env : LoadEnv) (numScoreComponent : Nat) (files : List String)
    (tableLimit : Nat) :
    (Load env numScoreComponent files tableLimit = none ↔
      ∃ spec ∈ files, ':' ∉ spec.toList ∨
        (env.Scan (specCode spec) ≠ env.Memory ∧
          (env.Scan (specCode spec) ≠ env.Compact ∨ env.WIN32 = true))) ∧
    (∀ d, Load env numScoreComponent files tableLimit = some d →
      d.m_pd = files.map (specBackend env numScoreComponent tableLimit) ∧
        d.m_pd.length = files.length ∧ d.m_numModels = files.length) := by
  by_cases h : ∃ spec ∈ files, ':' ∉ spec.toList ∨
      (env.Scan (specCode spec) ≠ env.Memory ∧
        (env.Scan (specCode spec) ≠ env.Compact ∨ env.WIN32 = true))
  · have hl := Load_of_rejected env numScoreComponent files tableLimit h
    refine ⟨⟨fun _ => h, fun _ => hl⟩, ?_⟩
    intro d hd
    rw [hl] at hd
    exact absurd hd (by simp)
  · have hacc : ∀ spec ∈ files, ':' ∈ spec.toList ∧
        (env.Scan (specCode spec) = env.Memory ∨
          (env.Scan (specCode spec) = env.Compact ∧ env.WIN32 = false)) := by
      intro spec hs
      by_contra hc
      apply h
      refine ⟨spec, hs, ?_⟩
      by_cases hd : ':' ∈ spec.toList
      · right
        by_cases hm : env.Scan (specCode spec) = env.Memory
        · exact absurd ⟨hd, Or.inl hm⟩ hc
        · refine ⟨hm, ?_⟩
          by_cases hcm : env.Scan (specCode spec) = env.Compact
          · right
            cases hw : env.WIN32 with
            | true => rfl
            | false => exact absurd ⟨hd, Or.inr ⟨hcm, hw⟩⟩ hc
          · exact Or.inl hcm
      · exact Or.inl hd
    have hl := Load_of_accepted env numScoreComponent files tableLimit hacc
    refine ⟨⟨fun hn => ?_, fun hb => absurd hb h⟩, ?_⟩
    · rw [hl] at hn
      exact absurd hn (by simp)
    · intro d hd
      rw [hl] at hd
      simp only [Option.some.injEq] at hd
      subst hd
      simp

/-- C15 (amended) at a concrete input: a memory table and a compact table, in this order. -/
theorem C15_load_fatal_iff_witness :
    Load (exampleEnv false) 2 ["0:a", "12:b"] 20 =
      some { m_tableLimit := 20
             m_componentTableLimit := 20
             m_numModels := 2
             m_pd := [{ backendClass := BackendClass.PhraseDictionaryMemory
                        numScoreComponentMultiModel := 2
                        file := "a"
                        tableLimit := 20 },
                      { backendClass := BackendClass.PhraseDictionaryCompact
                        numScoreComponentMultiModel := 2
                        file := "b"
                        tableLimit := 20 }] } := by
  have h := C15_load_fatal_iff (exampleEnv false) 2 ["0:a", "12:b"] 20
  cases hl : Load (exampleEnv false) 2 ["0:a", "12:b"] 20 with
  | none =>
    obtain ⟨spec, hs, hbad⟩ := h.1.mp hl
    simp only [List.mem_cons, List.mem_singleton, List.not_mem_nil, or_false] at hs
    rcases hs with hs | hs <;> subst hs <;> revert hbad <;> decide
  | some d =>
    obtain ⟨h1, _, h3⟩ := h.2 d hl
    have h4 : d.m_tableLimit = 20 ∧ d.m_componentTableLimit = 20 := by
      have hl2 := hl
      rw [Load_eq_foldl] at hl2
      simp only [Option.map_eq_some'] at hl2
      obtain ⟨pds, _, hd⟩ := hl2
      rw [← hd]
      exact ⟨rfl, rfl⟩
    cases d with
    | mk a b c e =>
      simp only at h1 h3 h4
      rw [h1, h3, h4.1, h4.2]
      decide

/-- C15 as stated fails: the memory table of the spec `0:table` is loaded from `table.gz`
when only that file exists, not from the path after the `':'`; and in a build that defines
`WIN32` the spec `12:table`, whose code is `Compact`, makes `Load` fail. -/
theorem C15_counterexample :
    Load (exampleEnv false) 2 ["0:table"] 20 =
        some { m_tableLimit := 20
               m_componentTableLimit := 20
               m_numModels := 1
               m_pd := [{ backendClass := BackendClass.PhraseDictionaryMemory
                          numScoreComponentMultiModel := 2
                          file := "table.gz"
                          tableLimit := 20 }] } ∧
      specPath "0:table" = "table" ∧
      Load (exampleEnv true) 2 ["12:table"] 20 = none ∧
      (exampleEnv true).Scan (specCode "12:table") = (exampleEnv true).Compact := by
  refine ⟨by decide, by decide, by decide, by decide⟩

/-! ## Lemmas on the partial selection -/

theorem removeBest_spec {α : Type} (rank : α → ℚ) (l : List α) (b : α) (rest : List α)
    (h : removeBest rank l = some (b, rest)) :
    (b :: rest).Perm l ∧ ∀ y ∈ rest, rank y ≤ rank b := by
  induction l generalizing b rest with
  | nil => simp [removeBest] at h
  | cons x xs ih =>
    unfold removeBest at h
    cases hr : removeBest rank xs with
    | none =>
      rw [hr] at h
      simp only [Option.some.injEq, Prod.mk.injEq] at h
      obtain ⟨h1, h2⟩ := h
      subst h1 h2
      have hxs : xs = [] := by
        cases xs with
        | nil => rfl
        | cons y ys =>
          unfold removeBest at hr
          cases hr2 : removeBest rank ys with
          | none => rw [hr2] at hr; simp at hr
          | some pr =>
            rw [hr2] at hr
            simp only at hr
            split at hr <;> simp at hr
      subst hxs
      exact ⟨List.Perm.refl _, fun y hy => absurd hy (List.not_mem_nil y)⟩
    | some pr =>
      obtain ⟨b2, rest2⟩ := pr
      rw [hr] at h
      simp only at h
      obtain ⟨hperm, hmax⟩ := ih b2 rest2 hr
      by_cases hlt : rank x < rank b2
      · rw [if_pos hlt] at h
        simp only [Option.some.injEq, Prod.mk.injEq] at h
        obtain ⟨h1, h2⟩ := h
        subst h1 h2
        refine ⟨?_, ?_⟩
        · exact (List.Perm.swap x b2 rest2).trans (List.Perm.cons x hperm)
        · intro y hy
          rcases List.mem_cons.mp hy with hy | hy
          · rw [hy]; exact le_of_lt hlt
          · exact hmax y hy
      · rw [if_neg hlt] at h
        simp only [Option.some.injEq, Prod.mk.injEq] at h
        obtain ⟨h1, h2⟩ := h
        subst h1 h2
        refine ⟨List.Perm.refl _, ?_⟩
        intro y hy
        have hy2 : y ∈ b2 :: rest2 := hperm.symm.subset hy
        rcases List.mem_cons.mp hy2 with hy3 | hy3
        · rw [hy3]; exact not_lt.mp hlt
        · exact le_trans (hmax y hy3) (not_lt.mp hlt)

theorem removeBest_eq_none {α : Type} (rank : α → ℚ) (l : List α)
    (h : removeBest rank l = none) : l = [] := by
  cases l with
  | nil => rfl
  | cons x xs =>
    unfold removeBest at h
    cases hr : removeBest rank xs with
    | none => rw [hr] at h; simp at h
    | some pr =>
      rw [hr] at h
      simp only at h
      split at h <;> simp at h

/-- The partial selection keeps every entry. -/
theorem selectBest_perm {α : Type} (rank : α → ℚ) (k : Nat) (l : List α) :
    (selectBest rank k l).Perm l := by
  induction k generalizing l with
  | zero => exact List.Perm.refl _
  | succ k ih =>
    unfold selectBest
    cases hr : removeBest rank l with
    | none =>
      rw [removeBest_eq_none rank l hr]
    | some pr =>
      obtain ⟨b, rest⟩ := pr
      simp only
      exact (List.Perm.cons b (ih rest)).trans (removeBest_spec rank l b rest hr).1

/-- After the partial selection each of the first `k` entries ranks at least as well as
each of the others. -/
theorem selectBest_top {α : Type} (rank : α → ℚ) (k : Nat) (l : List α) (hk : k ≤ l.length) :
    ∀ a ∈ (selectBest rank k l).take k, ∀ b ∈ (selectBest rank k l).drop k,
      rank b ≤ rank a := by
  induction k generalizing l with
  | zero => intro a ha; simp at ha
  | succ k ih =>
    unfold selectBest
    cases hr : removeBest rank l with
    | none =>
      rw [removeBest_eq_none rank l hr] at hk
      simp at hk
    | some pr =>
      obtain ⟨b0, rest⟩ := pr
      simp only
      obtain ⟨hperm, hmax⟩ := removeBest_spec rank l b0 rest hr
      have hlen : rest.length + 1 = l.length := by
        have := hperm.length_eq
        simpa using this
      have hk2 : k ≤ rest.length := by omega
      intro a ha b hb
      rw [List.take_succ_cons] at ha
      rw [List.drop_succ_cons] at hb
      have hb2 : b ∈ rest :=
        (selectBest_perm rank k rest).subset (List.mem_of_mem_drop hb)
      rcases List.mem_cons.mp ha with ha | ha
      · rw [ha]; exact hmax b hb2
      · exact ih rest hk2 a ha b hb

/-- The modelled `NthElement` keeps every entry, and with a non-zero limit below the size
of the collection it puts the best-ranked entries first. -/
theorem NthElement_spec {α : Type} (rank : α → ℚ) (K : Nat) (l : List α) :
    (NthElement rank K l).Perm l ∧
      (K ≠ 0 → K < l.length →
        ∀ a ∈ (NthElement rank K l).take K, ∀ b ∈ (NthElement rank K l).drop K,
          rank b ≤ rank a) := by
  unfold NthElement
  by_cases h : K = 0 ∨ l.length ≤ K
  · rw [if_pos h]
    refine ⟨List.Perm.refl _, ?_⟩
    intro h0 hlt
    rcases h with h | h
    · exact absurd h h0
    · omega
  · rw [if_neg h]
    exact ⟨selectBest_perm rank K l, fun _ hlt => selectBest_top rank K l (Nat.le_of_lt hlt)⟩

/-- C16: with `NthElement` as the specification describes it, the collection returned by
`GetTargetPhraseCollection` holds every combined candidate (it is a rearrangement of the
collection built by the combination), and when the global table limit `K` is non-zero and
smaller than the number of candidates, each of the first `K` entries ranks at least as well
as each of the remaining entries. -/
theorem C16_partial_selection {Src P : Type} (TransformScore UntransformScore : Flt → Flt)
    (rank : TargetPhrase P → ℚ) (d : PhraseDictionaryMultiModel Src P) (sd : StaticData)
    (ref : PhraseCache P) (src : Src) (weights : List (List Flt))
    (hw : (getWeights d.m_numModels sd (d.m_numScoreComponent - 1) true).result = some weights) :
    ∃ ret cache,
      GetTargetPhraseCollection TransformScore UntransformScore (NthElement rank) d sd ref src =
        some (ret, cache) ∧
      ret.Perm (CreateTargetPhraseCollectionLinearInterpolation TransformScore
        d.m_numScoreComponent
        (aggregate UntransformScore d.m_numScoreComponent d.m_numModels d.m_componentTableLimit
          (d.m_pd.map (fun pd => pd src)))
        weights) ∧
      (d.m_tableLimit ≠ 0 → d.m_tableLimit < ret.length →
        ∀ a ∈ ret.take d.m_tableLimit, ∀ b ∈ ret.drop d.m_tableLimit, rank b ≤ rank a) := by
  have hspec := NthElement_spec rank d.m_tableLimit
    (CreateTargetPhraseCollectionLinearInterpolation TransformScore d.m_numScoreComponent
      (aggregate UntransformScore d.m_numScoreComponent d.m_numModels d.m_componentTableLimit
        (d.m_pd.map (fun pd => pd src)))
      weights)
  refine ⟨NthElement rank d.m_tableLimit
      (CreateTargetPhraseCollectionLinearInterpolation TransformScore d.m_numScoreComponent
        (aggregate UntransformScore d.m_numScoreComponent d.m_numModels d.m_componentTableLimit
          (d.m_pd.map (fun pd => pd src)))
        weights),
    CacheForCleanup ref (NthElement rank d.m_tableLimit
      (CreateTargetPhraseCollectionLinearInterpolation TransformScore d.m_numScoreComponent
        (aggregate UntransformScore d.m_numScoreComponent d.m_numModels d.m_componentTableLimit
          (d.m_pd.map (fun pd => pd src)))
        weights)), ?_, hspec.1, ?_⟩
  · unfold GetTargetPhraseCollection
    simp only [hw]
  · intro h0 hlt
    exact hspec.2 h0 (by rw [← hspec.1.length_eq]; exact hlt)

/-- The uniform weights of two models for one weighted dimension. -/
theorem getWeights_example_uniform :
    (getWeights 2 ⟨none, none⟩ 1 true).result = some [[Flt.fin (1 / 2), Flt.fin (1 / 2)]] := by
  have hsum : ([1 / 2, 1 / 2] : List ℚ).sum ≠ 0 := by norm_num
  have hn := (normalizeWeights_of_sum_ne_zero 2 [1 / 2, 1 / 2] rfl hsum).1
  have hraw : rawWeights 2 1 ⟨none, none⟩ = ([], some [1 / 2, 1 / 2]) := by
    rw [rawWeights_uniform 2 1 ⟨none, none⟩ (Or.inl rfl) (Or.inl rfl)]
    norm_num [List.replicate]
  simp only [getWeights, hraw, Option.map_some', buildWeightMatrix_eq_map, List.range_succ,
    List.range_zero, List.nil_append, List.map_cons, List.map_nil, if_true]
  have hrow : weightsOneFeature 2 [1 / 2, 1 / 2] 0 = [1 / 2, 1 / 2] := by
    simp [weightsOneFeature]
  rw [hrow, hn]
  norm_num

/-- C16 at a concrete input: two backends, three distinct candidates, global limit 1. -/
theorem C16_partial_selection_witness :
    ∃ ret cache,
      GetTargetPhraseCollection TransformScoreStandIn (fun x => x) (NthElement exampleRank)
        exampleDictionary ⟨none, none⟩ [] () = some (ret, cache) ∧
      ret.Perm (CreateTargetPhraseCollectionLinearInterpolation TransformScoreStandIn 2
        (aggregate (fun x => x) 2 2 0 (exampleDictionary.m_pd.map (fun pd => pd ())))
        [[Flt.fin (1 / 2), Flt.fin (1 / 2)]]) ∧
      (1 ≠ 0 → 1 < ret.length →
        ∀ a ∈ ret.take 1, ∀ b ∈ ret.drop 1, exampleRank b ≤ exampleRank a) :=
  C16_partial_selection TransformScoreStandIn (fun x => x) exampleRank exampleDictionary
    ⟨none, none⟩ [] () [[Flt.fin (1 / 2), Flt.fin (1 / 2)]] getWeights_example_uniform

/-! ## Lemmas on convexity and rescaling -/

/-- The inner product of two rows of finite values is the finite sum of the products. -/
theorem inner_product_fin (cs ws : List ℚ) (a : ℚ) :
    inner_product (cs.map Flt.fin) (ws.map Flt.fin) (Flt.fin a) =
      Flt.fin (a + (List.zipWith (fun c w => c * w) cs ws).sum) := by
  induction cs generalizing ws a with
  | nil => simp [inner_product]
  | cons c cs ih =>
    cases ws with
    | nil => simp [inner_product]
    | cons w ws =>
      rw [List.map_cons, List.map_cons, inner_product_cons]
      simp only [Flt.mul, Flt.add]
      rw [ih]
      simp [add_assoc]

/-- A sum of products with non-negative weights lies between the bounds of the other
factors, scaled by the sum of the weights. -/
theorem zipWith_sum_bounds (cs ws : List ℚ) (lo hi : ℚ) (hlen : cs.length = ws.length)
    (hw : ∀ w ∈ ws, 0 ≤ w) (hc : ∀ c ∈ cs, lo ≤ c ∧ c ≤ hi) :
    lo * ws.sum ≤ (List.zipWith (fun c w => c * w) cs ws).sum ∧
      (List.zipWith (fun c w => c * w) cs ws).sum ≤ hi * ws.sum := by
  induction cs generalizing ws with
  | nil =>
    cases ws with
    | nil => simp
    | cons w ws => simp at hlen
  | cons c cs ih =>
    cases ws with
    | nil => simp at hlen
    | cons w ws =>
      simp only [List.length_cons, Nat.succ.injEq, add_left_inj] at hlen
      have hw0 : 0 ≤ w := hw w (List.mem_cons_self _ _)
      obtain ⟨hlo, hhi⟩ := hc c (List.mem_cons_self _ _)
      obtain ⟨h1, h2⟩ := ih ws hlen (fun x hx => hw x (List.mem_cons_of_mem _ hx))
        (fun x hx => hc x (List.mem_cons_of_mem _ hx))
      simp only [List.zipWith_cons_cons, List.sum_cons, mul_add]
      constructor
      · have := mul_le_mul_of_nonneg_right hlo hw0
        linarith
      · have := mul_le_mul_of_nonneg_right hhi hw0
        linarith

theorem sum_map_nonneg_div (ws : List ℚ) (S : ℚ) (hS : 0 < S) (hw : ∀ w ∈ ws, 0 ≤ w) :
    ∀ x ∈ ws.map (fun w => w / S), 0 ≤ x := by
  intro x hx
  obtain ⟨w, hwm, rfl⟩ := List.mem_map.mp hx
  exact div_nonneg (hw w hwm) (le_of_lt hS)

/-- Every entry of a row of `raw_weights` is an entry of `raw_weights`. -/
theorem mem_weightsOneFeature (m : Nat) (raw : List ℚ) (d : Nat) (x : ℚ)
    (hx : x ∈ weightsOneFeature m raw d) : x ∈ raw := by
  unfold weightsOneFeature at hx
  by_cases h : raw.length = m
  · rw [if_pos h] at hx; exact hx
  · rw [if_neg h] at hx
    exact List.mem_of_mem_drop (List.mem_of_mem_take hx)

/-- The rows of a rescaled vector are the rescaled rows. -/
theorem weightsOneFeature_map (m : Nat) (raw : List ℚ) (d : Nat) (f : ℚ → ℚ) :
    weightsOneFeature m (raw.map f) d = (weightsOneFeature m raw d).map f := by
  unfold weightsOneFeature
  by_cases h : raw.length = m
  · simp [h]
  · simp [h, List.map_take, List.map_drop]

theorem sum_map_mul_left (ws : List ℚ) (c : ℚ) : (ws.map (fun w => c * w)).sum = c * ws.sum := by
  induction ws with
  | nil => simp
  | cons w ws ih => simp [ih, mul_add]

/-- Normalising a rescaled row gives the normalised row. -/
theorem normalizeWeights_scale (m : Nat) (row : List ℚ) (c : ℚ) (hlen : row.length = m)
    (hsum : row.sum ≠ 0) (hc : c ≠ 0) :
    normalizeWeights m (row.map (fun w => c * w)) = normalizeWeights m row := by
  have hsum2 : (row.map (fun w => c * w)).sum ≠ 0 := by
    rw [sum_map_mul_left]; exact mul_ne_zero hc hsum
  rw [(normalizeWeights_of_sum_ne_zero m _ (by simpa using hlen) hsum2).1,
    (normalizeWeights_of_sum_ne_zero m row hlen hsum).1, sum_map_mul_left, List.map_map]
  apply List.map_congr_left
  intro w _
  simp only [Function.comp_apply]
  rw [mul_div_mul_left _ _ hc]

/-- The normalised matrix of a rescaled vector is the normalised matrix of the vector. -/
theorem buildWeightMatrix_scale (m nw : Nat) (raw : List ℚ) (c : ℚ)
    (hlen : raw.length = m ∨ raw.length = m * nw)
    (hsum : ∀ d, d < nw → specRowSum m raw d ≠ 0) (hc : c ≠ 0) :
    buildWeightMatrix m nw true (raw.map (fun w => c * w)) = buildWeightMatrix m nw true raw := by
  rw [buildWeightMatrix_eq_map, buildWeightMatrix_eq_map]
  apply List.map_congr_left
  intro d hd
  have hd2 : d < nw := List.mem_range.mp hd
  simp only [if_true]
  rw [weightsOneFeature_map]
  apply normalizeWeights_scale m _ c (weightsOneFeature_length m nw raw d hd2 hlen) _ hc
  rw [weightsOneFeature_sum m nw raw d hd2 hlen]
  exact hsum d hd2

/-- What `raw_weights` holds when there is no override and the configuration weights have
a valid length. -/
theorem rawWeights_config (m nw : Nat) (w : List ℚ) (hne : w ≠ [])
    (hlen : w.length = m ∨ w.length = m * nw) :
    rawWeights m nw ⟨none, some w⟩ = ([], some w) := by
  have h0 : w.length ≠ 0 := by
    intro h; exact hne (List.length_eq_zero.mp h)
  have h1 : ¬ (w.length ≠ m ∧ w.length ≠ m * nw) := by
    rintro ⟨a, b⟩; rcases hlen with h | h
    · exact a h
    · exact b h
  simp [rawWeights, selectWeightsPtr, resolveRawWeights, h0, h1]

/-- C19 (amended): in exact arithmetic, with weights resolved by `getWeights(numWeights, true)`
from non-negative raw weights whose row `d` has a positive sum, the linear-domain combined
value of dimension `d` of a candidate with finite per-model cells (the inner product fed to
`TransformScore`) is a convex combination of the cells: it lies between every lower and upper bound of the cells,
hence between their minimum and maximum, and equals `p` when all cells equal `p`. -/
theorem C19_convex_combination (numModels numWeights : Nat) (sd : StaticData) (raw : List ℚ)
    (d : Nat) (cells : List ℚ)
    (hraw : (rawWeights numModels numWeights sd).2 = some raw) (hd : d < numWeights)
    (hnonneg : ∀ w ∈ raw, 0 ≤ w) (hpos : 0 < specRowSum numModels raw d)
    (hcells : cells.length = numModels) :
    ∃ M wrow v,
      (getWeights numModels sd numWeights true).result = some M ∧
      M[d]? = some wrow ∧
      inner_product (cells.map Flt.fin) wrow (Flt.fin 0) = Flt.fin v ∧
      (∀ (TransformScore : Flt → Flt) (p : List (List Flt)),
        p.getD d [] = cells.map Flt.fin →
        (combinedScoreVector TransformScore (numWeights + 1) p M)[d]? =
          some (TransformScore (Flt.fin v))) ∧
      (∀ lo hi, (∀ c ∈ cells, lo ≤ c ∧ c ≤ hi) → lo ≤ v ∧ v ≤ hi) ∧
      (∀ p, (∀ c ∈ cells, c = p) → v = p) := by
  obtain ⟨M, hM, hrow, hlen, hsum⟩ :=
    getWeights_normalized_row numModels numWeights sd raw d hraw hd
  have hS : 0 < (weightsOneFeature numModels raw d).sum := by rw [hsum]; exact hpos
  have hnorm := (normalizeWeights_of_sum_ne_zero numModels _ hlen (ne_of_gt hS)).1
  have hmap : (weightsOneFeature numModels raw d).map
      (fun w => Flt.fin (w / (weightsOneFeature numModels raw d).sum)) =
      ((weightsOneFeature numModels raw d).map
        (fun w => w / (weightsOneFeature numModels raw d).sum)).map Flt.fin := by
    rw [List.map_map]; rfl
  have hinner : inner_product (cells.map Flt.fin)
      (normalizeWeights numModels (weightsOneFeature numModels raw d)) (Flt.fin 0) =
      Flt.fin ((List.zipWith (fun c w => c * w) cells
        ((weightsOneFeature numModels raw d).map
          (fun w => w / (weightsOneFeature numModels raw d).sum))).sum) := by
    rw [hnorm, hmap, inner_product_fin]
    simp
  have hwsum : ((weightsOneFeature numModels raw d).map
      (fun w => w / (weightsOneFeature numModels raw d).sum)).sum = 1 := by
    rw [sum_map_div, div_self (ne_of_gt hS)]
  have hwnn := sum_map_nonneg_div (weightsOneFeature numModels raw d) _ hS
    (fun w hw => hnonneg w (mem_weightsOneFeature numModels raw d w hw))
  have hlen2 : cells.length = ((weightsOneFeature numModels raw d).map
      (fun w => w / (weightsOneFeature numModels raw d).sum)).length := by
    rw [List.length_map, hlen, hcells]
  refine ⟨M, _, _, hM, hrow, hinner, ?_, ?_, ?_⟩
  · intro T p hp
    rw [combinedScoreVector_getElem?_lt T (numWeights + 1) p M d (by omega), hp]
    have hMd : M.getD d [] = normalizeWeights numModels (weightsOneFeature numModels raw d) := by
      rw [List.getD_eq_getElem?_getD, hrow]; rfl
    rw [hMd, hinner]
  · intro lo hi hb
    have h := zipWith_sum_bounds cells _ lo hi hlen2 hwnn hb
    rw [hwsum, mul_one, mul_one] at h
    exact h
  · intro p hp
    have h := zipWith_sum_bounds cells _ p p hlen2 hwnn
      (fun c hc => by rw [hp c hc]; exact ⟨le_refl _, le_refl _⟩)
    rw [hwsum, mul_one] at h
    exact le_antisymm h.2 h.1

/-- C19 at a concrete input: configuration weights `[1, 3]`, cells `0.4` and `0.6`. -/
theorem C19_convex_combination_witness :
    ∃ M wrow v,
      (getWeights 2 ⟨none, some [1, 3]⟩ 1 true).result = some M ∧
      M[0]? = some wrow ∧
      inner_product ([2 / 5, 3 / 5].map Flt.fin) wrow (Flt.fin 0) = Flt.fin v ∧
      2 / 5 ≤ v ∧ v ≤ 3 / 5 := by
  obtain ⟨M, wrow, v, h1, h2, h3, _, h5, _⟩ :=
    C19_convex_combination 2 1 ⟨none, some [1, 3]⟩ [1, 3] 0 [2 / 5, 3 / 5]
      (by rw [rawWeights_config 2 1 [1, 3] (by simp) (Or.inl rfl)])
      (by decide)
      (by intro w hw; simp at hw; rcases hw with h | h <;> rw [h] <;> norm_num)
      (by norm_num [specRowSum, specEntry, Finset.sum_range_succ])
      rfl
  refine ⟨M, wrow, v, h1, h2, h3, ?_⟩
  apply h5
  intro c hc
  simp at hc
  rcases hc with h | h <;> rw [h] <;> norm_num

/-- C20: normalised weight resolution is invariant under rescaling.  For a weight vector
`w` of valid length whose rows have non-zero sums and a constant `c ≠ 0`, `getWeights` with
`normalize = true` returns the same matrix for `c*w` as for `w`, be the vector the request
override or the configuration weights; and `normalizeWeights` returns an already normalised
row (a row of sum one, such as the normalised form of any row of non-zero sum) unchanged. -/
theorem C20_scale_invariance (numModels numWeights : Nat) (w : List ℚ) (c : ℚ)
    (hlen : w.length = numModels ∨ w.length = numModels * numWeights)
    (hsum : ∀ d, d < numWeights → specRowSum numModels w d ≠ 0) (hc : c ≠ 0) :
    (∀ config : Option (List ℚ),
      (getWeights numModels ⟨some (w.map (fun x => c * x)), config⟩ numWeights true).result =
        (getWeights numModels ⟨some w, config⟩ numWeights true).result) ∧
    (getWeights numModels ⟨none, some (w.map (fun x => c * x))⟩ numWeights true).result =
        (getWeights numModels ⟨none, some w⟩ numWeights true).result ∧
    (∀ row : List ℚ, row.length = numModels → row.sum = 1 →
      normalizeWeights numModels row = row.map Flt.fin) ∧
    (∀ row : List ℚ, row.length = numModels → row.sum ≠ 0 →
      normalizeWeights numModels (row.map (fun x => x / row.sum)) =
        normalizeWeights numModels row) := by
  have hlen2 : (w.map (fun x => c * x)).length = numModels ∨
      (w.map (fun x => c * x)).length = numModels * numWeights := by
    simpa using hlen
  have hidem : ∀ row : List ℚ, row.length = numModels → row.sum = 1 →
      normalizeWeights numModels row = row.map Flt.fin := by
    intro row hl hs
    rw [(normalizeWeights_of_sum_ne_zero numModels row hl (by rw [hs]; norm_num)).1, hs]
    simp
  refine ⟨?_, ?_, hidem, ?_⟩
  · intro config
    by_cases hne : w = []
    · subst hne; rfl
    · have hne2 : w.map (fun x => c * x) ≠ [] := by simpa using hne
      simp only [getWeights, rawWeights_override numModels numWeights _ config hne2 hlen2,
        rawWeights_override numModels numWeights w config hne hlen, Option.map_some']
      rw [buildWeightMatrix_scale numModels numWeights w c hlen hsum hc]
  · by_cases hne : w = []
    · subst hne; rfl
    · have hne2 : w.map (fun x => c * x) ≠ [] := by simpa using hne
      simp only [getWeights, rawWeights_config numModels numWeights _ hne2 hlen2,
        rawWeights_config numModels numWeights w hne hlen, Option.map_some']
      rw [buildWeightMatrix_scale numModels numWeights w c hlen hsum hc]
  · intro row hl hs
    have hs1 : (row.map (fun x => x / row.sum)).sum = 1 := by
      rw [sum_map_div, div_self hs]
    rw [hidem _ (by simpa using hl) hs1,
      (normalizeWeights_of_sum_ne_zero numModels row hl hs).1, List.map_map]
    rfl

/-- C20 at a concrete input: the override `[1, 3]` and its double `[2, 6]`. -/
theorem C20_scale_invariance_witness :
    (getWeights 2 ⟨some [2, 6], none⟩ 1 true).result =
      (getWeights 2 ⟨some [1, 3], none⟩ 1 true).result := by
  have h := (C20_scale_invariance 2 1 [1, 3] 2 (Or.inl rfl)
    (by intro d hd
        have hd0 : d = 0 := by omega
        subst hd0
        norm_num [specRowSum, specEntry, Finset.sum_range_succ])
    (by norm_num)).1 none
  norm_num at h
  exact h

/-! ## Lemmas on the map of statistics -/

theorem StatsMap.find_assign_self {P : Type} (key : String) (v : multiModelStatistics P)
    (s : StatsMap P) : StatsMap.find key (StatsMap.assign key v s) = some v := by
  induction s with
  | nil => simp [StatsMap.assign, StatsMap.find]
  | cons e s ih =>
    obtain ⟨k, w⟩ := e
    unfold StatsMap.assign
    by_cases h1 : k = key
    · simp [h1, StatsMap.find]
    · by_cases h2 : key < k
      · simp [h1, h2, StatsMap.find]
      · simp only [h1, h2, if_false, StatsMap.find]
        exact ih

theorem StatsMap.find_assign_ne {P : Type} (key other : String) (v : multiModelStatistics P)
    (s : StatsMap P) (h : other ≠ key) :
    StatsMap.find other (StatsMap.assign key v s) = StatsMap.find other s := by
  have h' : ¬ key = other := fun e => h e.symm
  induction s with
  | nil => simp [StatsMap.assign, StatsMap.find, h']
  | cons e s ih =>
    obtain ⟨k, w⟩ := e
    unfold StatsMap.assign
    by_cases h1 : k = key
    · have h3 : ¬ k = other := by rw [h1]; exact h'
      simp [h1, StatsMap.find, h', h3]
    · by_cases h2 : key < k
      · simp [h1, h2, StatsMap.find, h']
      · simp only [h1, h2, if_false, StatsMap.find]
        by_cases h3 : k = other
        · simp [h3]
        · simp only [h3, if_false]
          exact ih

theorem StatsMap.mem_keys_assign {P : Type} (key other : String) (v : multiModelStatistics P)
    (s : StatsMap P) :
    other ∈ (StatsMap.assign key v s).map Prod.fst ↔ other = key ∨ other ∈ s.map Prod.fst := by
  induction s with
  | nil => simp [StatsMap.assign]
  | cons e s ih =>
    obtain ⟨k, w⟩ := e
    unfold StatsMap.assign
    by_cases h1 : k = key
    · simp only [h1, if_true, List.map_cons, List.mem_cons]
      tauto
    · by_cases h2 : key < k
      · simp only [h1, h2, if_true, if_false, List.map_cons, List.mem_cons]
      · simp only [h1, h2, if_false, List.map_cons, List.mem_cons, ih]
        tauto

theorem StatsMap.find_eq_none_iff {P : Type} (key : String) (s : StatsMap P) :
    StatsMap.find key s = none ↔ key ∉ s.map Prod.fst := by
  induction s with
  | nil => simp [StatsMap.find]
  | cons e s ih =>
    obtain ⟨k, w⟩ := e
    unfold StatsMap.find
    by_cases h1 : k = key
    · simp [h1]
    · have h2 : ¬ key = k := fun e => h1 e.symm
      simp [h1, h2, ih]

/-- The assignment keeps the keys in strictly increasing order. -/
theorem StatsMap.assign_sorted {P : Type} (key : String) (v : multiModelStatistics P)
    (s : StatsMap P) (hs : (s.map Prod.fst).Pairwise (fun a b => a < b)) :
    ((StatsMap.assign key v s).map Prod.fst).Pairwise (fun a b => a < b) := by
  induction s with
  | nil => simp [StatsMap.assign]
  | cons e s ih =>
    obtain ⟨k, w⟩ := e
    simp only [List.map_cons, List.pairwise_cons] at hs
    obtain ⟨hk, hrest⟩ := hs
    unfold StatsMap.assign
    by_cases h1 : k = key
    · simp only [h1, if_true, List.map_cons, List.pairwise_cons]
      exact ⟨fun a ha => by rw [← h1]; exact hk a ha, hrest⟩
    · by_cases h2 : key < k
      · simp only [h1, h2, if_true, if_false, List.map_cons, List.pairwise_cons]
        refine ⟨?_, hk, hrest⟩
        intro a ha
        rcases List.mem_cons.mp ha with h | h
        · rw [h]; exact h2
        · exact lt_trans h2 (hk a h)
      · simp only [h1, h2, if_false, List.map_cons, List.pairwise_cons]
        refine ⟨?_, ih hrest⟩
        intro a ha
        rcases (StatsMap.mem_keys_assign key a v s).mp ha with h | h
        · rw [h]
          rcases lt_trichotomy k key with h3 | h3 | h3
          · exact h3
          · exact absurd h3 h1
          · exact absurd h3 h2
        · exact hk a h

/-- With keys in strictly increasing order, every entry of the map is the one found under
its key. -/
theorem StatsMap.find_of_mem {P : Type} (s : StatsMap P) (key : String)
    (v : multiModelStatistics P) (hs : (s.map Prod.fst).Pairwise (fun a b => a < b))
    (hmem : (key, v) ∈ s) : StatsMap.find key s = some v := by
  induction s with
  | nil => exact absurd hmem (List.not_mem_nil _)
  | cons e s ih =>
    obtain ⟨k, w⟩ := e
    simp only [List.map_cons, List.pairwise_cons] at hs
    obtain ⟨hk, hrest⟩ := hs
    unfold StatsMap.find
    rcases List.mem_cons.mp hmem with h | h
    · simp only [Prod.mk.injEq] at h
      simp [h.1, h.2]
    · have hkey : key ∈ s.map Prod.fst := List.mem_map.mpr ⟨(key, v), h, rfl⟩
      have hlt : k < key := hk key hkey
      have hne : ¬ k = key := ne_of_lt hlt
      simp only [hne, if_false]
      exact ih hrest h

/-- Every entry found under a key is an entry of the map. -/
theorem StatsMap.mem_of_find {P : Type} (s : StatsMap P) (key : String)
    (v : multiModelStatistics P) (h : StatsMap.find key s = some v) : (key, v) ∈ s := by
  induction s with
  | nil => simp [StatsMap.find] at h
  | cons e s ih =>
    obtain ⟨k, w⟩ := e
    unfold StatsMap.find at h
    by_cases h1 : k = key
    · simp only [h1, if_true, Option.some.injEq] at h
      rw [h1, h]; exact List.mem_cons_self _ _
    · simp only [h1, if_false] at h
      exact List.mem_cons_of_mem _ (ih h)

/-! ## Lemmas on the matrices of the aggregation -/

/-- Overwriting position `i` of a row given entry by entry. -/
theorem set_map_range {α : Type} (m i : Nat) (cell : Nat → α) (v : α) :
    ((List.range m).map cell).set i v =
      (List.range m).map (fun j => if j = i then v else cell j) := by
  apply List.ext_getElem?
  intro j
  rw [List.getElem?_set, List.getElem?_map, List.getElem?_map]
  by_cases hj : j < m
  · rw [List.getElem?_range hj]
    by_cases hij : i = j
    · subst hij
      simp [hj]
    · have hji : ¬ j = i := fun e => hij e.symm
      simp [hij, hji, List.getElem?_range hj]
  · have hj2 : m ≤ j := Nat.le_of_not_lt hj
    have hnone : (List.range m)[j]? = none := List.getElem?_eq_none (by simpa using hj2)
    rw [hnone]
    by_cases hij : i = j
    · subst hij
      simp [hj]
    · simp [hij, hnone]

/-- The matrix allocated at the first occurrence of a key: all cells are zero. -/
theorem newStatistics_p {P : Type} (n m : Nat) (tp : TargetPhrase P) :
    (newStatistics n m tp).p =
      (List.range n).map (fun _ => (List.range m).map (fun _ => Flt.fin 0)) := by
  unfold newStatistics
  simp only
  rw [foldl_set_range_replicate (fun _ => List.replicate m (Flt.fin 0)) n []]
  apply List.map_congr_left
  intro d _
  apply List.ext_getElem?
  intro j
  rw [List.getElem?_replicate, List.getElem?_map]
  by_cases hj : j < m
  · simp [hj, List.getElem?_range hj]
  · have hnone : (List.range m)[j]? = none :=
      List.getElem?_eq_none (by simpa using Nat.le_of_not_lt hj)
    simp [hj, hnone]

theorem newStatistics_targetPhrase {P : Type} (n m : Nat) (tp : TargetPhrase P) :
    ∃ scoreVector, (newStatistics n m tp).targetPhrase = SetScore tp scoreVector := by
  unfold newStatistics
  exact ⟨_, rfl⟩

/-- The loop of lines 158-160 on a matrix given cell by cell: column `i` is overwritten. -/
theorem writeScores_map_range (U : Flt → Flt) (n m i : Nat) (raw : List Flt)
    (cell : Nat → Nat → Flt) :
    writeScores U n i raw ((List.range n).map (fun d => (List.range m).map (cell d))) =
      (List.range n).map (fun d => (List.range m).map
        (fun j => if j = i then U (raw.getD d (Flt.fin 0)) else cell d j)) := by
  unfold writeScores
  apply List.ext_getElem?
  intro d
  have h := foldl_set_range_getElem?
    (fun (row : List Flt) (j : Nat) => row.set i (U (raw.getD j (Flt.fin 0)))) [] n
    ((List.range n).map (fun d => (List.range m).map (cell d))) d
  simp only at h
  rw [h]
  by_cases hd : d < n
  · rw [if_pos hd, List.getElem?_map, List.getElem?_map, List.getElem?_range hd]
    simp only [Option.map_some']
    rw [set_map_range]
  · have hnone : (List.range n)[d]? = none :=
      List.getElem?_eq_none (by simpa using Nat.le_of_not_lt hd)
    rw [if_neg hd, List.getElem?_map, List.getElem?_map, hnone]
    rfl

/-! ## Lemmas on the expected entries -/

theorem expectedCell_append {P : Type} (U : Flt → Flt) (evs : List (Nat × TargetPhrase P))
    (i : Nat) (tp : TargetPhrase P) (key : String) (d j : Nat) :
    expectedCell U (evs ++ [(i, tp)]) key d j =
      if i = j ∧ tp.stringRep = key then U (tp.scores.getD d (Flt.fin 0))
      else expectedCell U evs key d j := by
  unfold expectedCell
  rw [List.filter_append]
  by_cases h : i = j ∧ tp.stringRep = key
  · rw [if_pos h]
    have hf : List.filter (fun e : Nat × TargetPhrase P =>
        decide (e.1 = j ∧ e.2.stringRep = key)) [(i, tp)] = [(i, tp)] := by
      simp [List.filter, h]
    rw [hf, List.getLast?_concat]
  · rw [if_neg h]
    have hf : List.filter (fun e : Nat × TargetPhrase P =>
        decide (e.1 = j ∧ e.2.stringRep = key)) [(i, tp)] = [] := by
      simp [List.filter, h]
    rw [hf, List.append_nil]

theorem expectedCell_nil {P : Type} (U : Flt → Flt) (key : String) (d j : Nat) :
    expectedCell U ([] : List (Nat × TargetPhrase P)) key d j = Flt.fin 0 := by
  simp [expectedCell]

/-- The expected matrix after one more candidate with the same key: column `i` is written. -/
theorem expectedMatrix_append_same {P : Type} (U : Flt → Flt) (n m : Nat)
    (evs : List (Nat × TargetPhrase P)) (i : Nat) (tp : TargetPhrase P) :
    expectedMatrix U n m (evs ++ [(i, tp)]) tp.stringRep =
      writeScores U n i tp.scores (expectedMatrix U n m evs tp.stringRep) := by
  unfold expectedMatrix
  rw [writeScores_map_range]
  apply List.map_congr_left
  intro d _
  apply List.map_congr_left
  intro j _
  rw [expectedCell_append]
  by_cases h : j = i
  · subst h; simp
  · have h2 : ¬ i = j := fun e => h e.symm
    simp [h, h2]

/-- The expected matrix of another key is not touched. -/
theorem expectedMatrix_append_other {P : Type} (U : Flt → Flt) (n m : Nat)
    (evs : List (Nat × TargetPhrase P)) (i : Nat) (tp : TargetPhrase P) (key : String)
    (h : tp.stringRep ≠ key) :
    expectedMatrix U n m (evs ++ [(i, tp)]) key = expectedMatrix U n m evs key := by
  unfold expectedMatrix
  apply List.map_congr_left
  intro d _
  apply List.map_congr_left
  intro j _
  rw [expectedCell_append]
  simp [h]

theorem expectedMatrix_nil {P : Type} (U : Flt → Flt) (n m : Nat) (key : String) :
    expectedMatrix U n m ([] : List (Nat × TargetPhrase P)) key =
      (List.range n).map (fun _ => (List.range m).map (fun _ => Flt.fin 0)) := by
  unfold expectedMatrix
  simp only [expectedCell_nil]

/-- The expected matrix of a key that has not occurred is the zero matrix. -/
theorem expectedMatrix_of_absent {P : Type} (U : Flt → Flt) (n m : Nat)
    (evs : List (Nat × TargetPhrase P)) (key : String)
    (h : evs.find? (fun e => decide (e.2.stringRep = key)) = none) :
    expectedMatrix U n m evs key =
      (List.range n).map (fun _ => (List.range m).map (fun _ => Flt.fin 0)) := by
  unfold expectedMatrix
  apply List.map_congr_left
  intro d _
  apply List.map_congr_left
  intro j _
  unfold expectedCell
  have hf : List.filter (fun e : Nat × TargetPhrase P =>
      decide (e.1 = j ∧ e.2.stringRep = key)) evs = [] := by
    rw [List.filter_eq_nil_iff]
    intro e he hp
    have hk : e.2.stringRep = key := by
      have := of_decide_eq_true hp
      exact this.2
    have := List.find?_eq_none.mp h e he
    simp [hk] at this
  rw [hf]
  rfl

theorem expectedEntry_append_other {P : Type} (U : Flt → Flt) (n m : Nat)
    (evs : List (Nat × TargetPhrase P)) (i : Nat) (tp : TargetPhrase P) (key : String)
    (h : tp.stringRep ≠ key) :
    expectedEntry U n m (evs ++ [(i, tp)]) key = expectedEntry U n m evs key := by
  unfold expectedEntry
  rw [List.find?_append, expectedMatrix_append_other U n m evs i tp key h]
  have hf : List.find? (fun e : Nat × TargetPhrase P => decide (e.2.stringRep = key))
      [(i, tp)] = none := by
    simp [List.find?, h]
  rw [hf]
  simp

theorem expectedEntry_append_absent {P : Type} (U : Flt → Flt) (n m : Nat)
    (evs : List (Nat × TargetPhrase P)) (i : Nat) (tp : TargetPhrase P)
    (h : expectedEntry U n m evs tp.stringRep = none) :
    expectedEntry U n m (evs ++ [(i, tp)]) tp.stringRep =
      some { targetPhrase := (newStatistics n m tp).targetPhrase
             p := writeScores U n i tp.scores (newStatistics n m tp).p } := by
  have hnone : evs.find? (fun e => decide (e.2.stringRep = tp.stringRep)) = none := by
    unfold expectedEntry at h
    simpa using h
  unfold expectedEntry
  rw [List.find?_append, hnone, expectedMatrix_append_same,
    expectedMatrix_of_absent U n m evs tp.stringRep hnone, newStatistics_p]
  simp [List.find?]

theorem expectedEntry_append_present {P : Type} (U : Flt → Flt) (n m : Nat)
    (evs : List (Nat × TargetPhrase P)) (i : Nat) (tp : TargetPhrase P)
    (st : multiModelStatistics P) (h : expectedEntry U n m evs tp.stringRep = some st) :
    expectedEntry U n m (evs ++ [(i, tp)]) tp.stringRep =
      some { st with p := writeScores U n i tp.scores st.p } := by
  unfold expectedEntry at h
  simp only [Option.map_eq_some'] at h
  obtain ⟨e0, he0, hst⟩ := h
  unfold expectedEntry
  rw [List.find?_append, he0, expectedMatrix_append_same, ← hst]
  simp

/-- The body of the inner loop keeps the invariant of the aggregation. -/
theorem aggregateCandidate_invariant {P : Type} (U : Flt → Flt) (n m : Nat)
    (evs : List (Nat × TargetPhrase P)) (s : StatsMap P) (i : Nat) (tp : TargetPhrase P)
    (h : aggregationInvariant U n m evs s) :
    aggregationInvariant U n m (evs ++ [(i, tp)]) (aggregateCandidate U n m i s tp) := by
  obtain ⟨hsorted, hfind⟩ := h
  cases hk : StatsMap.find tp.stringRep s with
  | none =>
    have hagg : aggregateCandidate U n m i s tp =
        StatsMap.assign tp.stringRep
          { newStatistics n m tp with
            p := writeScores U n i tp.scores (newStatistics n m tp).p }
          (StatsMap.assign tp.stringRep (newStatistics n m tp) s) := by
      unfold aggregateCandidate
      simp only [hk, StatsMap.find_assign_self]
    rw [hagg]
    refine ⟨StatsMap.assign_sorted _ _ _ (StatsMap.assign_sorted _ _ _ hsorted), ?_⟩
    intro key
    by_cases hkey : key = tp.stringRep
    · subst hkey
      rw [StatsMap.find_assign_self, expectedEntry_append_absent U n m evs i tp
        (by rw [← hfind, hk])]
    · rw [StatsMap.find_assign_ne _ _ _ _ hkey, StatsMap.find_assign_ne _ _ _ _ hkey, hfind,
        expectedEntry_append_other U n m evs i tp key (fun e => hkey e.symm)]
  | some st =>
    have hagg : aggregateCandidate U n m i s tp =
        StatsMap.assign tp.stringRep
          { st with p := writeScores U n i tp.scores st.p } s := by
      unfold aggregateCandidate
      simp only [hk]
    rw [hagg]
    refine ⟨StatsMap.assign_sorted _ _ _ hsorted, ?_⟩
    intro key
    by_cases hkey : key = tp.stringRep
    · subst hkey
      rw [StatsMap.find_assign_self, expectedEntry_append_present U n m evs i tp st
        (by rw [← hfind, hk])]
    · rw [StatsMap.find_assign_ne _ _ _ _ hkey, hfind,
        expectedEntry_append_other U n m evs i tp key (fun e => hkey e.symm)]

theorem aggregationInvariant_nil {P : Type} (U : Flt → Flt) (n m : Nat) :
    aggregationInvariant U n m ([] : List (Nat × TargetPhrase P)) [] := by
  refine ⟨by simp, ?_⟩
  intro key
  simp [StatsMap.find, expectedEntry]

/-- Processing a sequence of candidates keeps the invariant. -/
theorem foldl_aggregateCandidate_invariant {P : Type} (U : Flt → Flt) (n m : Nat)
    (l pre : List (Nat × TargetPhrase P)) (s : StatsMap P)
    (h : aggregationInvariant U n m pre s) :
    aggregationInvariant U n m (pre ++ l)
      (l.foldl (fun st e => aggregateCandidate U n m e.1 st e.2) s) := by
  induction l generalizing pre s with
  | nil => simpa using h
  | cons e l ih =>
    rw [List.foldl_cons]
    have h2 := ih (pre ++ [e]) _ (aggregateCandidate_invariant U n m pre s e.1 e.2 h)
    simpa using h2

/-- The aggregation loop processes the considered candidates backend by backend. -/
theorem aggregate_eq_foldl_events {P : Type} (U : Flt → Flt) (n m limit : Nat)
    (lookups : List (Option (List (TargetPhrase P)))) :
    aggregate U n m limit lookups =
      (aggregationEvents limit m lookups).foldl
        (fun st e => aggregateCandidate U n m e.1 st e.2) [] := by
  have hback : ∀ (s : StatsMap P) (i : Nat),
      aggregateBackend U n m limit s i (lookups.getD i none) =
        ((consideredOf limit lookups i).map (fun c => (i, c))).foldl
          (fun st e => aggregateCandidate U n m e.1 st e.2) s := by
    intro s i
    unfold consideredOf
    cases hl : lookups.getD i none with
    | none => rfl
    | some cands =>
      simp only
      rw [aggregateBackend_eq_foldl, List.foldl_map]
  have key : ∀ (k : Nat) (s0 : StatsMap P),
      (List.range k).foldl
          (fun allStats i => aggregateBackend U n m limit allStats i (lookups.getD i none)) s0 =
        ((List.range k).flatMap
          (fun i => (consideredOf limit lookups i).map (fun c => (i, c)))).foldl
          (fun st e => aggregateCandidate U n m e.1 st e.2) s0 := by
    intro k
    induction k with
    | zero => intro s0; simp
    | succ k ih =>
      intro s0
      rw [List.range_succ, List.foldl_append, ih, List.flatMap_append, List.foldl_append]
      simp only [List.foldl_cons, List.foldl_nil, List.flatMap_cons, List.flatMap_nil,
        List.append_nil]
      exact hback _ k
  exact key m []

/-- The invariant holds for the map the aggregation loop builds. -/
theorem aggregate_invariant {P : Type} (U : Flt → Flt) (n m limit : Nat)
    (lookups : List (Option (List (TargetPhrase P)))) :
    aggregationInvariant U n m (aggregationEvents limit m lookups)
      (aggregate U n m limit lookups) := by
  rw [aggregate_eq_foldl_events]
  have h := foldl_aggregateCandidate_invariant U n m (aggregationEvents limit m lookups) [] []
    (aggregationInvariant_nil U n m)
  simpa using h

/-- The processed candidates of backend `i` with a given key are the considered candidates
of that backend with that key. -/
theorem aggregationEvents_filter {P : Type} (limit k : Nat)
    (lookups : List (Option (List (TargetPhrase P)))) (key : String) (i : Nat) :
    ((List.range k).flatMap
        (fun j => (consideredOf limit lookups j).map (fun c => (j, c)))).filter
        (fun e => decide (e.1 = i ∧ e.2.stringRep = key)) =
      if i < k then
        ((consideredOf limit lookups i).filter (fun c => decide (c.stringRep = key))).map
          (fun c => (i, c))
      else [] := by
  induction k with
  | zero => simp
  | succ k ih =>
    rw [List.range_succ, List.flatMap_append, List.filter_append, ih]
    simp only [List.flatMap_cons, List.flatMap_nil, List.append_nil]
    rw [List.filter_map]
    by_cases hik : i < k
    · have hne : ¬ k = i := by omega
      have hf : List.filter ((fun e : Nat × TargetPhrase P =>
          decide (e.1 = i ∧ e.2.stringRep = key)) ∘ fun c => (k, c))
          (consideredOf limit lookups k) = [] := by
        rw [List.filter_eq_nil_iff]
        intro c _
        simp [hne]
      rw [if_pos hik, if_pos (by omega), hf]
      simp
    · rw [if_neg hik]
      by_cases hk : i = k
      · subst hk
        rw [if_pos (Nat.lt_succ_self i), List.nil_append]
        congr 1
        apply List.filter_congr
        intro c _
        simp
      · have hne : ¬ k = i := fun e => hk e.symm
        have hf : List.filter ((fun e : Nat × TargetPhrase P =>
            decide (e.1 = i ∧ e.2.stringRep = key)) ∘ fun c => (k, c))
            (consideredOf limit lookups k) = [] := by
          rw [List.filter_eq_nil_iff]
          intro c _
          simp [hne]
        rw [if_neg (by omega), hf]
        simp

/-- The cell the aggregation holds is the cell of the policy "last write wins". -/
theorem expectedCell_eq_lastWriteCell {P : Type} (U : Flt → Flt) (limit m : Nat)
    (lookups : List (Option (List (TargetPhrase P)))) (key : String) (d i : Nat) (hi : i < m) :
    expectedCell U (aggregationEvents limit m lookups) key d i =
      lastWriteCell U limit lookups key d i := by
  unfold expectedCell lastWriteCell lastWithKey aggregationEvents
  rw [aggregationEvents_filter, if_pos hi, List.getLast?_map]
  cases ((consideredOf limit lookups i).filter
    (fun c => decide (c.stringRep = key))).getLast? <;> rfl

theorem aggregationEvents_map_snd {P : Type} (limit m : Nat)
    (lookups : List (Option (List (TargetPhrase P)))) :
    (aggregationEvents limit m lookups).map Prod.snd = allConsidered limit m lookups := by
  unfold aggregationEvents allConsidered
  rw [List.map_flatMap]
  congr 1
  funext i
  simp [List.map_map, Function.comp_def]

/-- The first processed candidate with a key is the first considered candidate with it. -/
theorem firstWithKey_allConsidered {P : Type} (limit m : Nat)
    (lookups : List (Option (List (TargetPhrase P)))) (key : String) :
    firstWithKey key (allConsidered limit m lookups) =
      ((aggregationEvents limit m lookups).find?
        (fun e => decide (e.2.stringRep = key))).map Prod.snd := by
  unfold firstWithKey
  rw [← aggregationEvents_map_snd, List.find?_map]
  rfl

/-- The entry of a key in the aggregated map, in terms of the considered candidates. -/
theorem find_aggregate {P : Type} (U : Flt → Flt) (n m limit : Nat)
    (lookups : List (Option (List (TargetPhrase P)))) (key : String)
    (stats : multiModelStatistics P)
    (h : StatsMap.find key (aggregate U n m limit lookups) = some stats) :
    (∃ c0 scoreVector, firstWithKey key (allConsidered limit m lookups) = some c0 ∧
        c0.stringRep = key ∧ stats.targetPhrase = SetScore c0 scoreVector) ∧
      stats.p = (List.range n).map
        (fun d => (List.range m).map (fun i => lastWriteCell U limit lookups key d i)) := by
  have hinv := (aggregate_invariant U n m limit lookups).2 key
  rw [h] at hinv
  unfold expectedEntry at hinv
  have hinv2 := hinv.symm
  simp only [Option.map_eq_some'] at hinv2
  obtain ⟨e0, he0, hst⟩ := hinv2
  constructor
  · obtain ⟨v, hv⟩ := newStatistics_targetPhrase n m e0.2
    refine ⟨e0.2, v, ?_, ?_, ?_⟩
    · rw [firstWithKey_allConsidered, he0]; rfl
    · have := List.find?_some he0
      simpa using this
    · rw [← hst]; exact hv
  · rw [← hst]
    simp only
    unfold expectedMatrix
    apply List.map_congr_left
    intro d _
    apply List.map_congr_left
    intro i hi
    exact expectedCell_eq_lastWriteCell U limit m lookups key d i (List.mem_range.mp hi)

/-- C11: after the aggregation loop of `GetTargetPhraseCollection`, for every candidate key
in the map, every dimension `d` and every backend index `i`, the cell `p[d][i]` of the
key's matrix is `UntransformScore(score[d])` of the last candidate with that key among the
considered candidates of backend `i` (the last write wins, nothing is summed), and `0` when
backend `i` produced no considered candidate with that key. -/
theorem C11_last_write_wins {P : Type} (UntransformScore : Flt → Flt)
    (numScoreComponents numModels limit : Nat)
    (lookups : List (Option (List (TargetPhrase P)))) (key : String)
    (stats : multiModelStatistics P) (d i : Nat)
    (hfind : StatsMap.find key
      (aggregate UntransformScore numScoreComponents numModels limit lookups) = some stats)
    (hd : d < numScoreComponents) (hi : i < numModels) :
    ∃ row, stats.p[d]? = some row ∧
      row[i]? = some
        (match lastWithKey key (consideredOf limit lookups i) with
          | some c => UntransformScore (c.scores.getD d (Flt.fin 0))
          | none => Flt.fin 0) := by
  obtain ⟨_, hp⟩ := find_aggregate UntransformScore numScoreComponents numModels limit lookups
    key stats hfind
  refine ⟨(List.range numModels).map
    (fun i => lastWriteCell UntransformScore limit lookups key d i), ?_, ?_⟩
  · rw [hp, List.getElem?_map, List.getElem?_range hd]
    rfl
  · rw [List.getElem?_map, List.getElem?_range hi]
    rfl

/-- A key that some considered candidate carries has an entry in the aggregated map. -/
theorem find_aggregate_of_first {P : Type} (U : Flt → Flt) (n m limit : Nat)
    (lookups : List (Option (List (TargetPhrase P)))) (key : String) (c0 : TargetPhrase P)
    (h : firstWithKey key (allConsidered limit m lookups) = some c0) :
    ∃ stats, StatsMap.find key (aggregate U n m limit lookups) = some stats := by
  rw [(aggregate_invariant U n m limit lookups).2 key]
  rw [firstWithKey_allConsidered] at h
  unfold expectedEntry
  cases hf : (aggregationEvents limit m lookups).find?
      (fun e => decide (e.2.stringRep = key)) with
  | none => rw [hf] at h; simp at h
  | some e0 => exact ⟨_, rfl⟩

/-- C11 at a concrete input: backend 0 returns the key `"a"` with scores 1 and then 2; the
cell of backend 0 holds the later score 2, and the cell of backend 1, which did not return
the key, holds 0. -/
theorem C11_last_write_wins_witness :
    ∃ stats row,
      StatsMap.find "a" (aggregate (fun x => x) 1 2 0 exampleLookups) = some stats ∧
      stats.p[0]? = some row ∧ row[0]? = some (Flt.fin 2) ∧ row[1]? = some (Flt.fin 0) := by
  have hfirst : firstWithKey "a" (allConsidered 0 2 exampleLookups) =
      some (exampleCandidate "a" 1) := by
    rfl
  obtain ⟨stats, hstats⟩ := find_aggregate_of_first (fun x => x) 1 2 0 exampleLookups "a" _ hfirst
  obtain ⟨row, h1, h2⟩ := C11_last_write_wins (fun x => x) 1 2 0 exampleLookups "a" stats 0 0
    hstats (by decide) (by decide)
  obtain ⟨row2, h3, h4⟩ := C11_last_write_wins (fun x => x) 1 2 0 exampleLookups "a" stats 0 1
    hstats (by decide) (by decide)
  have hrow : row2 = row := by
    rw [h1] at h3
    exact (Option.some.inj h3).symm
  subst hrow
  refine ⟨stats, row2, hstats, h1, ?_, ?_⟩
  · rw [h2]; rfl
  · rw [h4]; rfl

/-! ## Lemmas on the combined collection -/

/-- Every entry of the aggregated map carries the copy of the first considered candidate
with its key. -/
theorem aggregate_entry {P : Type} (U : Flt → Flt) (n m limit : Nat)
    (lookups : List (Option (List (TargetPhrase P)))) (entry : String × multiModelStatistics P)
    (h : entry ∈ aggregate U n m limit lookups) :
    (∃ c0 scoreVector, firstWithKey entry.1 (allConsidered limit m lookups) = some c0 ∧
        c0.stringRep = entry.1 ∧ entry.2.targetPhrase = SetScore c0 scoreVector) ∧
      entry.2.p = (List.range n).map
        (fun d => (List.range m).map (fun i => lastWriteCell U limit lookups entry.1 d i)) := by
  obtain ⟨k, st⟩ := entry
  have hfind := StatsMap.find_of_mem (aggregate U n m limit lookups) k st
    (aggregate_invariant U n m limit lookups).1 h
  exact find_aggregate U n m limit lookups k st hfind

/-- The keys of the aggregated map are the keys of the considered candidates. -/
theorem mem_keys_aggregate {P : Type} (U : Flt → Flt) (n m limit : Nat)
    (lookups : List (Option (List (TargetPhrase P)))) (key : String) :
    key ∈ (aggregate U n m limit lookups).map Prod.fst ↔
      key ∈ (allConsidered limit m lookups).map (fun c => c.stringRep) := by
  constructor
  · intro h
    obtain ⟨entry, hmem, hk⟩ := List.mem_map.mp h
    obtain ⟨⟨c0, _, hfirst, hc0, _⟩, _⟩ := aggregate_entry U n m limit lookups entry hmem
    unfold firstWithKey at hfirst
    have hc0mem := List.mem_of_find?_eq_some hfirst
    rw [← hk, ← hc0]
    exact List.mem_map.mpr ⟨c0, hc0mem, rfl⟩
  · intro h
    obtain ⟨c, hc, hk⟩ := List.mem_map.mp h
    have hsome : ∃ c0, firstWithKey key (allConsidered limit m lookups) = some c0 := by
      unfold firstWithKey
      cases hf : (allConsidered limit m lookups).find? (fun c => decide (c.stringRep = key)) with
      | none =>
        have := List.find?_eq_none.mp hf c hc
        simp only [decide_eq_true_eq] at this
        exact absurd hk this
      | some c0 => exact ⟨c0, rfl⟩
    obtain ⟨c0, hc0⟩ := hsome
    obtain ⟨stats, hstats⟩ := find_aggregate_of_first U n m limit lookups key c0 hc0
    by_contra hnot
    rw [(StatsMap.find_eq_none_iff key _).mpr hnot] at hstats
    exact absurd hstats (by simp)

theorem SetScore_stringRep {P : Type} (tp : TargetPhrase P) (v : List Flt) :
    (SetScore tp v).stringRep = tp.stringRep := rfl

/-- The keys of the combined collection, in order, are the keys of the aggregated map. -/
theorem combined_keys {P : Type} (T U : Flt → Flt) (n m limit : Nat)
    (lookups : List (Option (List (TargetPhrase P)))) (W : List (List Flt)) :
    (CreateTargetPhraseCollectionLinearInterpolation T n (aggregate U n m limit lookups) W).map
        (fun tp => tp.stringRep) =
      (aggregate U n m limit lookups).map Prod.fst := by
  rw [CreateTargetPhraseCollectionLinearInterpolation_eq_map, List.map_map]
  apply List.map_congr_left
  intro entry hmem
  obtain ⟨⟨c0, v, _, hc0, htp⟩, _⟩ := aggregate_entry U n m limit lookups entry hmem
  simp only [Function.comp_apply, SetScore_stringRep, htp, hc0]

/-- C12: the collection produced by `GetTargetPhraseCollection` (with an `NthElement` that
only rearranges the collection) contains exactly one composite candidate per distinct
candidate key among the considered candidates of all backends: no two entries have the same
key, the keys are those of the considered candidates, and the size is the number of
distinct keys.  Each composite candidate is a copy of the first considered candidate with
its key, in backend-index order and then in the backend's own order, with the two score
vectors handed to `SetScore`. -/
theorem C12_one_entry_per_key {Src P : Type} (TransformScore UntransformScore : Flt → Flt)
    (NthElement : Nat → List (TargetPhrase P) → List (TargetPhrase P))
    (d : PhraseDictionaryMultiModel Src P) (sd : StaticData) (ref : PhraseCache P) (src : Src)
    (weights : List (List Flt))
    (hperm : ∀ K l, (NthElement K l).Perm l)
    (hw : (getWeights d.m_numModels sd (d.m_numScoreComponent - 1) true).result = some weights) :
    ∃ ret cache,
      GetTargetPhraseCollection TransformScore UntransformScore NthElement d sd ref src =
        some (ret, cache) ∧
      (ret.map (fun tp => tp.stringRep)).Nodup ∧
      (∀ key, key ∈ ret.map (fun tp => tp.stringRep) ↔
        key ∈ (allConsidered d.m_componentTableLimit d.m_numModels
          (d.m_pd.map (fun pd => pd src))).map (fun c => c.stringRep)) ∧
      ret.length = ((allConsidered d.m_componentTableLimit d.m_numModels
          (d.m_pd.map (fun pd => pd src))).map (fun c => c.stringRep)).dedup.length ∧
      ∀ tp ∈ ret, ∃ c0 v1 v2,
        firstWithKey tp.stringRep (allConsidered d.m_componentTableLimit d.m_numModels
          (d.m_pd.map (fun pd => pd src))) = some c0 ∧
        tp = SetScore (SetScore c0 v1) v2 := by
  have hP := hperm d.m_tableLimit
    (CreateTargetPhraseCollectionLinearInterpolation TransformScore d.m_numScoreComponent
      (aggregate UntransformScore d.m_numScoreComponent d.m_numModels d.m_componentTableLimit
        (d.m_pd.map (fun pd => pd src)))
      weights)
  have hkeys := combined_keys TransformScore UntransformScore d.m_numScoreComponent
    d.m_numModels d.m_componentTableLimit (d.m_pd.map (fun pd => pd src)) weights
  have hPk := hP.map (fun tp : TargetPhrase P => tp.stringRep)
  rw [hkeys] at hPk
  have hsorted := (aggregate_invariant UntransformScore d.m_numScoreComponent d.m_numModels
    d.m_componentTableLimit (d.m_pd.map (fun pd => pd src))).1
  have hnodup0 : ((aggregate UntransformScore d.m_numScoreComponent d.m_numModels
      d.m_componentTableLimit (d.m_pd.map (fun pd => pd src))).map Prod.fst).Nodup :=
    hsorted.imp (fun h => ne_of_lt h)
  have hnodup := hPk.nodup_iff.mpr hnodup0
  have hmem : ∀ key, key ∈ (NthElement d.m_tableLimit
      (CreateTargetPhraseCollectionLinearInterpolation TransformScore d.m_numScoreComponent
        (aggregate UntransformScore d.m_numScoreComponent d.m_numModels d.m_componentTableLimit
          (d.m_pd.map (fun pd => pd src)))
        weights)).map (fun tp => tp.stringRep) ↔
      key ∈ (allConsidered d.m_componentTableLimit d.m_numModels
        (d.m_pd.map (fun pd => pd src))).map (fun c => c.stringRep) := by
    intro key
    rw [hPk.mem_iff]
    exact mem_keys_aggregate _ _ _ _ _ key
  refine ⟨NthElement d.m_tableLimit
      (CreateTargetPhraseCollectionLinearInterpolation TransformScore d.m_numScoreComponent
        (aggregate UntransformScore d.m_numScoreComponent d.m_numModels d.m_componentTableLimit
          (d.m_pd.map (fun pd => pd src)))
        weights),
    CacheForCleanup ref (NthElement d.m_tableLimit
      (CreateTargetPhraseCollectionLinearInterpolation TransformScore d.m_numScoreComponent
        (aggregate UntransformScore d.m_numScoreComponent d.m_numModels d.m_componentTableLimit
          (d.m_pd.map (fun pd => pd src)))
        weights)), ?_, hnodup, hmem, ?_, ?_⟩
  · unfold GetTargetPhraseCollection
    simp only [hw]
  · have hperm2 : ((NthElement d.m_tableLimit
        (CreateTargetPhraseCollectionLinearInterpolation TransformScore d.m_numScoreComponent
          (aggregate UntransformScore d.m_numScoreComponent d.m_numModels
            d.m_componentTableLimit (d.m_pd.map (fun pd => pd src)))
          weights)).map (fun tp => tp.stringRep)).Perm
        ((allConsidered d.m_componentTableLimit d.m_numModels
          (d.m_pd.map (fun pd => pd src))).map (fun c => c.stringRep)).dedup := by
      apply (List.perm_ext_iff_of_nodup hnodup (List.nodup_dedup _)).mpr
      intro key
      rw [hmem key, List.mem_dedup]
    have := hperm2.length_eq
    simpa using this
  · intro tp htp
    have htp0 := hP.subset htp
    rw [CreateTargetPhraseCollectionLinearInterpolation_eq_map] at htp0
    obtain ⟨entry, hentry, hdef⟩ := List.mem_map.mp htp0
    obtain ⟨⟨c0, v, hfirst, hc0, hcopy⟩, _⟩ := aggregate_entry UntransformScore
      d.m_numScoreComponent d.m_numModels d.m_componentTableLimit
      (d.m_pd.map (fun pd => pd src)) entry hentry
    refine ⟨c0, v, combinedScoreVector TransformScore d.m_numScoreComponent entry.2.p weights,
      ?_, ?_⟩
    · rw [← hdef, SetScore_stringRep, hcopy, SetScore_stringRep, hc0]
      exact hfirst
    · rw [← hdef, hcopy]

/-- C12 at a concrete input: two backends returning `"b"`, `"a"` and `"a"`, `"c"`: three
composite candidates. -/
theorem C12_one_entry_per_key_witness :
    ∃ ret cache,
      GetTargetPhraseCollection TransformScoreStandIn (fun x => x) (NthElement exampleRank)
        exampleDictionary ⟨none, none⟩ [] () = some (ret, cache) ∧
      (ret.map (fun tp => tp.stringRep)).Nodup ∧
      ret.length = 3 := by
  obtain ⟨ret, cache, h1, h2, _, h4, _⟩ :=
    C12_one_entry_per_key TransformScoreStandIn (fun x => x) (NthElement exampleRank)
      exampleDictionary ⟨none, none⟩ [] () [[Flt.fin (1 / 2), Flt.fin (1 / 2)]]
      (fun K l => (NthElement_spec exampleRank K l).1) getWeights_example_uniform
  refine ⟨ret, cache, h1, h2, ?_⟩
  rw [h4]
  decide

/-- C18: under the preconditions `numScoreComponents ≥ 1`, every considered candidate
carries at least `numScoreComponents` scores, and the selected weights pass the length
validation of `getWeights`, every index used by `getWeights`, by the aggregation loop and
by the combination is in bounds: `getWeights` returns exactly `numScoreComponents - 1` rows
of exactly `numModels` entries, built from rows of `numModels` weights that lie within
`raw_weights`; each per-candidate matrix has `numScoreComponents` rows of `numModels`
entries; each read `raw_scores[j]` is within the scores; each inner product pairs
`numModels` scores with `numModels` weights; and the last position `numScoreComponents - 1`
lies within the score vector. -/
theorem C18_indices_in_bounds {P : Type} (UntransformScore : Flt → Flt)
    (numScoreComponents numModels limit : Nat) (sd : StaticData)
    (lookups : List (Option (List (TargetPhrase P)))) (raw : List ℚ)
    (hn : 1 ≤ numScoreComponents)
    (hscores : ∀ i, i < numModels → ∀ c ∈ consideredOf limit lookups i,
      numScoreComponents ≤ c.scores.length)
    (hraw : (rawWeights numModels (numScoreComponents - 1) sd).2 = some raw) :
    (∃ W, (getWeights numModels sd (numScoreComponents - 1) true).result = some W ∧
      W.length = numScoreComponents - 1 ∧
      (∀ row ∈ W, row.length = numModels) ∧
      ∀ entry ∈ aggregate UntransformScore numScoreComponents numModels limit lookups,
        ∀ d, d < numScoreComponents - 1 →
          (entry.2.p.getD d []).length = numModels ∧ (W.getD d []).length = numModels) ∧
    (∀ i, i < numScoreComponents - 1 →
      (weightsOneFeature numModels raw i).length = numModels ∧
        (raw.length ≠ numModels → (i + 1) * numModels ≤ raw.length)) ∧
    (∀ entry ∈ aggregate UntransformScore numScoreComponents numModels limit lookups,
      entry.2.p.length = numScoreComponents ∧ ∀ row ∈ entry.2.p, row.length = numModels) ∧
    (∀ i, i < numModels → ∀ c ∈ consideredOf limit lookups i,
      ∀ j, j < numScoreComponents → j < c.scores.length) ∧
    numScoreComponents - 1 < numScoreComponents := by
  have hlen := rawWeights_length numModels (numScoreComponents - 1) sd raw hraw
  have hWrow : ∀ d, d < numScoreComponents - 1 →
      (buildWeightMatrix numModels (numScoreComponents - 1) true raw)[d]? =
          some (normalizeWeights numModels (weightsOneFeature numModels raw d)) ∧
        (normalizeWeights numModels (weightsOneFeature numModels raw d)).length = numModels := by
    intro d hd
    refine ⟨?_, ?_⟩
    · rw [buildWeightMatrix_getElem? numModels _ true raw d hd]; rfl
    · have h := resolvedRow_length numModels (numScoreComponents - 1) true raw d hd hlen
      simpa using h
  have hshape : ∀ entry ∈ aggregate UntransformScore numScoreComponents numModels limit lookups,
      entry.2.p.length = numScoreComponents ∧ ∀ row ∈ entry.2.p, row.length = numModels := by
    intro entry hentry
    obtain ⟨_, hp⟩ := aggregate_entry UntransformScore numScoreComponents numModels limit
      lookups entry hentry
    rw [hp]
    refine ⟨by simp, ?_⟩
    intro row hrow
    obtain ⟨d, _, hd⟩ := List.mem_map.mp hrow
    rw [← hd]; simp
  refine ⟨⟨buildWeightMatrix numModels (numScoreComponents - 1) true raw, ?_,
    buildWeightMatrix_length _ _ _ _, ?_, ?_⟩, ?_, hshape, ?_, by omega⟩
  · simp [getWeights, hraw]
  · intro row hrow
    obtain ⟨d, hd, hget⟩ := List.getElem_of_mem hrow
    rw [buildWeightMatrix_length] at hd
    have h1 := (hWrow d hd).1
    rw [List.getElem?_eq_getElem (by rw [buildWeightMatrix_length]; exact hd), hget] at h1
    rw [Option.some.inj h1]
    exact (hWrow d hd).2
  · intro entry hentry d hd
    constructor
    · obtain ⟨h1, h2⟩ := hshape entry hentry
      have hd2 : d < entry.2.p.length := by omega
      rw [List.getD_eq_getElem?_getD, List.getElem?_eq_getElem hd2]
      exact h2 _ (List.getElem_mem hd2)
    · rw [List.getD_eq_getElem?_getD, (hWrow d hd).1]
      exact (hWrow d hd).2
  · intro i hi
    refine ⟨weightsOneFeature_length numModels _ raw i hi hlen, ?_⟩
    intro hne
    rcases hlen with h | h
    · exact absurd h hne
    · rw [h, Nat.mul_comm numModels]
      exact Nat.mul_le_mul_right numModels hi
  · intro i hi c hc j hj
    exact Nat.lt_of_lt_of_le hj (hscores i hi c hc)

/-- C18 at a concrete input: the example dictionary, two score components, two models,
uniform weights. -/
theorem C18_indices_in_bounds_witness :
    (∃ W, (getWeights 2 ⟨none, none⟩ 1 true).result = some W ∧ W.length = 1 ∧
      (∀ row ∈ W, row.length = 2)) ∧
    (∀ entry ∈ aggregate (fun x => x) 2 2 0 (exampleDictionary.m_pd.map (fun pd => pd ())),
      entry.2.p.length = 2 ∧ ∀ row ∈ entry.2.p, row.length = 2) := by
  have h := C18_indices_in_bounds (fun x => x) 2 2 0 ⟨none, none⟩
    (exampleDictionary.m_pd.map (fun pd => pd ())) [1 / 2, 1 / 2] (by decide)
    (by
      intro i hi c hc
      have hi2 : i = 0 ∨ i = 1 := by omega
      rcases hi2 with h | h <;> subst h <;>
        simp [consideredOf, consideredCandidates, exampleDictionary] at hc <;>
        rcases hc with h | h <;> subst h <;> simp)
    (by
      rw [rawWeights_uniform 2 1 ⟨none, none⟩ (Or.inl rfl) (Or.inl rfl)]
      norm_num [List.replicate])
  obtain ⟨⟨W, h1, h2, h3, _⟩, _, h5, _, _⟩ := h
  exact ⟨⟨W, h1, h2, h3⟩, h5⟩

/-- C19 as stated fails in the floating-point arithmetic of the code: with three models and
neither an override nor configuration weights, every weight is the `float` nearest to 1/3
(their sum exceeds 1, and `total` rounds to 1, so normalising changes nothing); for three
cells all equal to the `float` nearest to 0.1, the inner product is
`26843547/268435456 = 0.1000000052...`, above every cell, also once converted to `float`
for `TransformScore`. -/
theorem C19_counterexample :
    getWeightsFloat 3 ⟨none, none⟩ 1 true =
        some [some [⟨11184811, -25⟩, ⟨11184811, -25⟩, ⟨11184811, -25⟩]] ∧
      roundRatio 24 1 10 0 = ⟨13421773, -27⟩ ∧
      inner_productFloat [⟨13421773, -27⟩, ⟨13421773, -27⟩, ⟨13421773, -27⟩]
          [⟨11184811, -25⟩, ⟨11184811, -25⟩, ⟨11184811, -25⟩] BinFloat.zero =
        ⟨7205759779602432, -56⟩ ∧
      BinFloat.convert 24 ⟨7205759779602432, -56⟩ = ⟨13421774, -27⟩ ∧
      BinFloat.toRat ⟨13421773, -27⟩ = 13421773 / 134217728 ∧
      BinFloat.toRat ⟨7205759779602432, -56⟩ = 26843547 / 268435456 ∧
      BinFloat.toRat ⟨13421774, -27⟩ = 6710887 / 67108864 ∧
      BinFloat.toRat ⟨13421773, -27⟩ < BinFloat.toRat ⟨7205759779602432, -56⟩ ∧
      BinFloat.toRat ⟨13421773, -27⟩ < BinFloat.toRat ⟨13421774, -27⟩ := by
  have h27 : Int.toNat 27 = 27 := rfl
  have h56 : Int.toNat 56 = 56 := rfl
  refine ⟨by decide, by decide, by decide, by decide, ?_, ?_, ?_, ?_, ?_⟩ <;>
    norm_num [BinFloat.toRat, h27, h56]

end Moses
